import Mathlib

/-!
# RotaryEncoder: a shallow embedding of `Src/RotaryEncoder.c`

The C library keeps a registry of encoder records, either as a singly linked
chain threaded through the records' `Previous` field (`ROTARY_ENCODER_MAX_NUM == -1`,
the build selected by `RotaryEncoder.h`) or as a static array of slots
(`ROTARY_ENCODER_MAX_NUM > 0`).  Memory is modelled as a total map from
record addresses to records; address `0` is the null pointer and the slots
of the static array sit at consecutive addresses, so that `pEncoder++` is
`pEncoder + 1`.  Chain-mode functions live in namespace `Chain`, array-mode
functions in namespace `Fixed`.

Conventions of the embedding
* `int16_t` values are integers, stores into an `int16_t` go through `toInt16`.
* one-bit bit-fields `Configured` and `Enabled` are booleans, `LastDirection`
  is the stored value modulo 2.
* the driver's `readPin` is a function of the pin it is asked about; calls to
  driver functions and to the `onChange` callback are recorded as events, the
  callback event carrying the record as the callback sees it.  Callbacks and
  driver functions are taken not to write to the registry.
* loops that follow `Previous` links take a fuel argument and report
  `Fault.outOfFuel` when it is exhausted; a dereference of the null record is
  `Fault.nullDeref`, a call through a null function pointer `Fault.nullCall`.
* the source spells the parameter `encoder` as `RotaryEncoder` in a few
  places (`lastEncoder = RotaryEncoder;`) and drops the first argument in
  `RotaryEncoder_setIndex(encoder->Index)`; both are read as the parameter
  `encoder`.
-/

/-! ## Data model (`RotaryEncoder.h`) -/

/-- Address of a record, of a pin pair or of a function; `0` is null. -/
abbrev Ptr := Nat

/-- The null record pointer, `ROTARY_ENCODER_NULL`. -/
def ROTARY_ENCODER_NULL : Ptr := 0

/-- The index type, `typedef int16_t RotaryEncoder_Index`. -/
abbrev RotaryEncoder_Index := Int

/-- A value fits `int16_t`. -/
def IsInt16 (x : Int) : Prop := -32768 ≤ x ∧ x ≤ 32767

instance (x : Int) : Decidable (IsInt16 x) := by
  unfold IsInt16; infer_instance

/-- Conversion of an `int` result to `int16_t`, wrapping modulo `2^16`. -/
def toInt16 (x : Int) : Int := (x + 32768) % 65536 - 32768

/-- The direction enumeration, held as its integer value. -/
abbrev RotaryEncoder_Direction := Nat

/-- Enumerator `RotaryEncoder_Direction_ClockWise = 0`. -/
def RotaryEncoder_Direction_ClockWise : RotaryEncoder_Direction := 0

/-- Enumerator `RotaryEncoder_Direction_AntiClockWise = 1`. -/
def RotaryEncoder_Direction_AntiClockWise : RotaryEncoder_Direction := 1

/-- One pin of a pin pair: the address of the `RotaryEncoder_Pins` value and
whether the `Clock` member (rather than `Data`, which sits at offset 0) is
meant. -/
structure PinRef where
  pins : Ptr
  clock : Bool
deriving DecidableEq

/-- Inclusive bounds of the index, `RotaryEncoder_IndexRange`. -/
structure RotaryEncoder_IndexRange where
  Min : RotaryEncoder_Index
  Max : RotaryEncoder_Index
deriving DecidableEq

/-- The record `struct _RotaryEncoder`.  `State` is assigned by
`RotaryEncoder_add` although the header does not declare it. -/
structure RotaryEncoder where
  Previous : Ptr
  Args : Ptr
  Config : Ptr
  onChange : Ptr
  Range : RotaryEncoder_IndexRange
  Index : RotaryEncoder_Index
  State : Nat
  LastDirection : Nat
  NotActive : Bool
  IsClockWise : Bool
  Configured : Bool
  Enabled : Bool
deriving DecidableEq

/-- The driver, `RotaryEncoder_Driver`: what `readPin` returns for each pin
(a `uint8_t`), and whether the `initPin` function pointer is set. -/
structure RotaryEncoder_Driver where
  readPin : PinRef → Fin 256
  initPin : Bool

/-- Record memory. -/
abbrev Heap := Ptr → RotaryEncoder

/-- Calls that leave the library. -/
inductive Event where
  | initPin (pin : PinRef)
  | readPin (pin : PinRef)
  | onChange (cb : Ptr) (encoder : Ptr) (direction : RotaryEncoder_Direction)
      (seen : RotaryEncoder)
deriving DecidableEq

/-- Ways in which a call fails to return. -/
inductive Fault where
  | nullDeref
  | nullCall
  | outOfFuel
deriving DecidableEq

/-- Chain-mode registry: record memory and the static `lastEncoder`. -/
structure Registry where
  heap : Heap
  lastEncoder : Ptr

/-- The registry before any call: `lastEncoder = ROTARY_ENCODER_NULL`. -/
def Registry.init (heap : Heap) : Registry := ⟨heap, ROTARY_ENCODER_NULL⟩

/-! ## Accessors -/

/-- `RotaryEncoder_setConfig`: `encoder->Config = config`. -/
def RotaryEncoder_setConfig (encoder : RotaryEncoder) (config : Ptr) : RotaryEncoder :=
  { encoder with Config := config }

/-- `RotaryEncoder_getConfig`. -/
def RotaryEncoder_getConfig (encoder : RotaryEncoder) : Ptr := encoder.Config

/-- `RotaryEncoder_setIndex`: the two tests read `encoder->Index`, the value
stored at the end is the (possibly replaced) parameter `index`. -/
def RotaryEncoder_setIndex (encoder : RotaryEncoder) (index : RotaryEncoder_Index) :
    RotaryEncoder :=
  let index :=
    if encoder.Index > encoder.Range.Max then encoder.Range.Max
    else if encoder.Index < encoder.Range.Min then encoder.Range.Min
    else index
  { encoder with Index := index }

/-- `RotaryEncoder_getIndex`. -/
def RotaryEncoder_getIndex (encoder : RotaryEncoder) : RotaryEncoder_Index := encoder.Index

/-- `RotaryEncoder_setRange`: stores `max`, then `min`, then calls
`RotaryEncoder_setIndex` with the record's current index. -/
def RotaryEncoder_setRange (encoder : RotaryEncoder) (min max : RotaryEncoder_Index) :
    RotaryEncoder :=
  let encoder := { encoder with Range := { encoder.Range with Max := max } }
  let encoder := { encoder with Range := { encoder.Range with Min := min } }
  RotaryEncoder_setIndex encoder encoder.Index

/-- `RotaryEncoder_onChange`: `encoder->onChange = cb`. -/
def RotaryEncoder_onChange (encoder : RotaryEncoder) (cb : Ptr) : RotaryEncoder :=
  { encoder with onChange := cb }

/-- `RotaryEncoder_setEnabled`: the `uint8_t` argument is stored into a
one-bit field, which keeps its lowest bit. -/
def RotaryEncoder_setEnabled (encoder : RotaryEncoder) (enabled : Nat) : RotaryEncoder :=
  { encoder with Enabled := decide (enabled % 2 = 1) }

/-- `RotaryEncoder_isEnabled`. -/
def RotaryEncoder_isEnabled (encoder : RotaryEncoder) : Nat :=
  if encoder.Enabled then 1 else 0

/-- `RotaryEncoder_setArgs`. -/
def RotaryEncoder_setArgs (encoder : RotaryEncoder) (args : Ptr) : RotaryEncoder :=
  { encoder with Args := args }

/-- `RotaryEncoder_getArgs`. -/
def RotaryEncoder_getArgs (encoder : RotaryEncoder) : Ptr := encoder.Args

/-! ## The body of the tick

`RotaryEncoder_handle` closes one brace more than it opens in every build
(line 77 is unconditional, its opening brace is not).  The embedding follows
the indentation: both tests guard the whole body and `__next` is the last
statement of the loop. -/

/-- The direction computed at line 63: the result of `==` (1 when the two
reads are equal, 0 otherwise) cast to the enumeration. -/
def readDirection (drv : RotaryEncoder_Driver) (e : RotaryEncoder) : RotaryEncoder_Direction :=
  if drv.readPin ⟨e.Config, false⟩ = drv.readPin ⟨e.Config, true⟩ then 1 else 0

/-- Lines 65-71: `Index += direction ? -1 : 1` followed by the two wrap tests. -/
def stepIndex (e : RotaryEncoder) (direction : RotaryEncoder_Direction) : RotaryEncoder :=
  let e1 := { e with Index := toInt16 (e.Index + (if direction ≠ 0 then -1 else 1)) }
  if e1.Index > e1.Range.Max then { e1 with Index := e1.Range.Min }
  else if e1.Index < e1.Range.Min then { e1 with Index := e1.Range.Max }
  else e1

/-- Lines 62-76 for the record at address `p`: read both pins, step the
index, call `onChange` when it is set, then store `LastDirection`. -/
def decode (drv : RotaryEncoder_Driver) (p : Ptr) (e : RotaryEncoder) :
    RotaryEncoder × List Event :=
  let direction := readDirection drv e
  let e1 := stepIndex e direction
  let calls :=
    if e1.onChange ≠ 0 then [Event.onChange e1.onChange p direction e1] else []
  ({ e1 with LastDirection := direction % 2 },
    [Event.readPin ⟨e.Config, false⟩, Event.readPin ⟨e.Config, true⟩] ++ calls)

/-- The loop body from the `Enabled` test inwards, shared by both builds: the
test is compiled in only when `ROTARY_ENCODER_ENABLE_FLAG` is set
(`enableFlag`); `RotaryEncoder.h` does not define it. -/
def handleRecord (enableFlag : Bool) (drv : RotaryEncoder_Driver) (p : Ptr)
    (e : RotaryEncoder) : RotaryEncoder × List Event :=
  if enableFlag && !e.Enabled then (e, []) else decode drv p e

namespace Chain

/-- The `while (ROTARY_ENCODER_NULL != pEncoder)` loop of `RotaryEncoder_handle`. -/
def handleLoop (enableFlag : Bool) (drv : RotaryEncoder_Driver) :
    Nat → Heap → Ptr → Except Fault (Heap × List Event)
  | 0, _, _ => .error Fault.outOfFuel
  | fuel + 1, heap, pEncoder =>
    if pEncoder = ROTARY_ENCODER_NULL then .ok (heap, [])
    else
      let r := handleRecord enableFlag drv pEncoder (heap pEncoder)
      let heap1 := Function.update heap pEncoder r.1
      match handleLoop enableFlag drv fuel heap1 (heap1 pEncoder).Previous with
      | .ok (heap2, evs) => .ok (heap2, r.2 ++ evs)
      | .error f => .error f

/-- `RotaryEncoder_handle` in chain mode. -/
def RotaryEncoder_handle (enableFlag : Bool) (drv : RotaryEncoder_Driver) (fuel : Nat)
    (reg : Registry) : Except Fault (Registry × List Event) :=
  match handleLoop enableFlag drv fuel reg.heap reg.lastEncoder with
  | .ok (heap, evs) => .ok (⟨heap, reg.lastEncoder⟩, evs)
  | .error f => .error f

/-- `RotaryEncoder_add` in chain mode.  The writes to `*encoder` (Config,
State, Previous, Configured, Enabled) are gathered in one record update. -/
def RotaryEncoder_add (drv : RotaryEncoder_Driver) (reg : Registry) (encoder config : Ptr) :
    Except Fault (Registry × Nat × List Event) :=
  if encoder = ROTARY_ENCODER_NULL then .ok (reg, 0, [])
  else
    let e1 := RotaryEncoder_setConfig (reg.heap encoder) config
    if !drv.initPin then .error Fault.nullCall
    else
      let a := drv.readPin ⟨e1.Config, false⟩
      let b := drv.readPin ⟨e1.Config, false⟩
      let e2 := { e1 with State := ((a.val <<< 1) ||| b.val) &&& 3 }
      let e3 := { e2 with Previous := reg.lastEncoder }
      let e4 := { e3 with Configured := true, Enabled := true }
      .ok (⟨Function.update reg.heap encoder e4, encoder⟩, 1,
        [Event.initPin ⟨config, false⟩, Event.readPin ⟨e1.Config, false⟩,
         Event.readPin ⟨e1.Config, false⟩])

/-- Lines 168-171 and 183-186: the four writes that drop `remove`, with
`pEncoder` the record whose `Previous` is redirected. -/
def unlink (heap : Heap) (pEncoder remove : Ptr) : Heap :=
  let heap1 := Function.update heap pEncoder
    { heap pEncoder with Previous := (heap remove).Previous }
  Function.update heap1 remove
    { heap1 remove with Previous := ROTARY_ENCODER_NULL, Configured := false, Enabled := false }

/-- The `while` loop of `RotaryEncoder_remove` (lines 174-190). -/
def removeLoop (remove : Ptr) : Nat → Heap → Ptr → Except Fault (Heap × Nat)
  | 0, _, _ => .error Fault.outOfFuel
  | fuel + 1, heap, pEncoder =>
    if pEncoder = ROTARY_ENCODER_NULL then .ok (heap, 0)
    else if remove = (heap pEncoder).Previous then
      if remove = ROTARY_ENCODER_NULL then .error Fault.nullDeref
      else .ok (unlink heap pEncoder remove, 1)
    else removeLoop remove fuel heap (heap pEncoder).Previous

/-- `RotaryEncoder_remove` in chain mode.  The de-initialisation blocks are
guarded by `ROTARY_ENCODER_USE_DEINIT`, which no header defines. -/
def RotaryEncoder_remove (fuel : Nat) (reg : Registry) (remove : Ptr) :
    Except Fault (Registry × Nat) :=
  let pEncoder := reg.lastEncoder
  if remove = pEncoder then
    if remove = ROTARY_ENCODER_NULL then .error Fault.nullDeref
    else .ok (⟨unlink reg.heap pEncoder remove, reg.lastEncoder⟩, 1)
  else
    match removeLoop remove fuel reg.heap pEncoder with
    | .ok (heap, ret) => .ok (⟨heap, reg.lastEncoder⟩, ret)
    | .error f => .error f

/-- The `while` loop of `RotaryEncoder_find` in chain mode. -/
def findLoop (config : Ptr) (heap : Heap) : Nat → Ptr → Except Fault Ptr
  | 0, _ => .error Fault.outOfFuel
  | fuel + 1, pEncoder =>
    if pEncoder = ROTARY_ENCODER_NULL then .ok ROTARY_ENCODER_NULL
    else if config = (heap pEncoder).Config then .ok pEncoder
    else findLoop config heap fuel (heap pEncoder).Previous

/-- `RotaryEncoder_find` in chain mode. -/
def RotaryEncoder_find (fuel : Nat) (reg : Registry) (config : Ptr) : Except Fault Ptr :=
  findLoop config reg.heap fuel reg.lastEncoder

end Chain

namespace Fixed

/-- The `while (len-- > 0)` loop of `RotaryEncoder_handle` in array mode: a
slot is decoded when `Configured` is set (and `Enabled`, when that test is
compiled in); `__next` is `pEncoder++`. -/
def handleLoop (enableFlag : Bool) (drv : RotaryEncoder_Driver) :
    Nat → Heap → Ptr → Heap × List Event
  | 0, heap, _ => (heap, [])
  | len + 1, heap, pEncoder =>
    let r :=
      if (heap pEncoder).Configured then handleRecord enableFlag drv pEncoder (heap pEncoder)
      else (heap pEncoder, [])
    let heap1 := Function.update heap pEncoder r.1
    let rest := handleLoop enableFlag drv len heap1 (pEncoder + 1)
    (rest.1, r.2 ++ rest.2)

/-- `RotaryEncoder_handle` in array mode; `encoders` is the address of the
static array and `uint8_t len = ROTARY_ENCODER_MAX_NUM`. -/
def RotaryEncoder_handle (enableFlag : Bool) (drv : RotaryEncoder_Driver) (MAX_NUM : Nat)
    (encoders : Ptr) (heap : Heap) : Heap × List Event :=
  handleLoop enableFlag drv (MAX_NUM % 256) heap encoders

/-- The `while (len-- > 0)` loop of `RotaryEncoder_new`. -/
def newLoop (heap : Heap) : Nat → Ptr → Ptr
  | 0, _ => ROTARY_ENCODER_NULL
  | len + 1, pEncoder =>
    if !(heap pEncoder).Configured then pEncoder
    else newLoop heap len (pEncoder + 1)

/-- `RotaryEncoder_new`. -/
def RotaryEncoder_new (MAX_NUM : Nat) (encoders : Ptr) (heap : Heap) : Ptr :=
  newLoop heap (MAX_NUM % 256) encoders

/-- The `while (len--)` loop of `RotaryEncoder_remove` in array mode. -/
def removeLoop (remove : Ptr) : Nat → Heap → Ptr → Heap × Nat
  | 0, heap, _ => (heap, 0)
  | len + 1, heap, pEncoder =>
    if remove = pEncoder ∧ (heap pEncoder).Configured = true then
      (Function.update heap pEncoder
        { heap pEncoder with Configured := false, Enabled := false }, 1)
    else removeLoop remove len heap (pEncoder + 1)

/-- `RotaryEncoder_remove` in array mode. -/
def RotaryEncoder_remove (MAX_NUM : Nat) (encoders : Ptr) (heap : Heap) (remove : Ptr) :
    Heap × Nat :=
  removeLoop remove (MAX_NUM % 256) heap encoders

/-- The `while (len--)` loop of `RotaryEncoder_find` in array mode. -/
def findLoop (config : Ptr) (heap : Heap) : Nat → Ptr → Ptr
  | 0, _ => ROTARY_ENCODER_NULL
  | len + 1, pEncoder =>
    if config = (heap pEncoder).Config then pEncoder
    else findLoop config heap len (pEncoder + 1)

/-- `RotaryEncoder_find` in array mode. -/
def RotaryEncoder_find (MAX_NUM : Nat) (encoders : Ptr) (heap : Heap) (config : Ptr) : Ptr :=
  findLoop config heap (MAX_NUM % 256) encoders

/-- `RotaryEncoder_add` in array mode: as in chain mode without the two
linking statements. -/
def RotaryEncoder_add (drv : RotaryEncoder_Driver) (heap : Heap) (encoder config : Ptr) :
    Except Fault (Heap × Nat × List Event) :=
  if encoder = ROTARY_ENCODER_NULL then .ok (heap, 0, [])
  else
    let e1 := RotaryEncoder_setConfig (heap encoder) config
    if !drv.initPin then .error Fault.nullCall
    else
      let a := drv.readPin ⟨e1.Config, false⟩
      let b := drv.readPin ⟨e1.Config, false⟩
      let e2 := { e1 with State := ((a.val <<< 1) ||| b.val) &&& 3 }
      let e4 := { e2 with Configured := true, Enabled := true }
      .ok (Function.update heap encoder e4, 1,
        [Event.initPin ⟨config, false⟩, Event.readPin ⟨e1.Config, false⟩,
         Event.readPin ⟨e1.Config, false⟩])

end Fixed

/-! ## Chains -/

/-- The records met by following `Previous` from `p` down to null are
exactly `l`, in that order. -/
def ChainFrom (heap : Heap) : Ptr → List Ptr → Prop
  | p, [] => p = ROTARY_ENCODER_NULL
  | p, x :: xs => p = x ∧ x ≠ ROTARY_ENCODER_NULL ∧ ChainFrom heap (heap x).Previous xs

/-- Record `r` is linked in the registry: it lies on the chain from the head. -/
def Linked (reg : Registry) (r : Ptr) : Prop :=
  ∃ l, ChainFrom reg.heap reg.lastEncoder l ∧ r ∈ l

instance ChainFrom.instDecidable (heap : Heap) : ∀ p l, Decidable (ChainFrom heap p l)
  | p, [] => inferInstanceAs (Decidable (p = ROTARY_ENCODER_NULL))
  | p, x :: xs =>
    have := ChainFrom.instDecidable heap (heap x).Previous xs
    inferInstanceAs (Decidable (p = x ∧ x ≠ ROTARY_ENCODER_NULL ∧
      ChainFrom heap (heap x).Previous xs))

/-- The wrap of the spec: a value above `Max` becomes `Min`, a value below
`Min` becomes `Max`. -/
def wrapIntoRange (range : RotaryEncoder_IndexRange) (x : Int) : Int :=
  if x > range.Max then range.Min else if x < range.Min then range.Max else x

/-- A record is decoded by a chain-mode tick: the `Enabled` test, when it is
compiled in, passes. -/
def Chain.Eligible (enableFlag : Bool) (e : RotaryEncoder) : Prop :=
  enableFlag = true → e.Enabled = true

/-- A slot is decoded by an array-mode tick: it is configured and the
`Enabled` test, when it is compiled in, passes. -/
def Fixed.Eligible (enableFlag : Bool) (e : RotaryEncoder) : Prop :=
  e.Configured = true ∧ (enableFlag = true → e.Enabled = true)

/-- An all-zero record, as in zero-initialised storage. -/
def zeroRecord : RotaryEncoder :=
  ⟨0, 0, 0, 0, ⟨0, 0⟩, 0, 0, 0, false, false, false, false⟩

/-- Memory in which every record is all-zero. -/
def zeroHeap : Heap := fun _ => zeroRecord

/-- A configured, enabled record at rest: pin pair 7, callback 5, range
`[0, 3]`, index 0. -/
def sampleRecord : RotaryEncoder :=
  { zeroRecord with Config := 7, onChange := 5, Range := ⟨0, 3⟩, Index := 0,
                    Configured := true, Enabled := true }

/-- A chain-mode registry holding `sampleRecord` at address 1 and nothing else. -/
def sampleRegistry : Registry := ⟨Function.update zeroHeap 1 sampleRecord, 1⟩

/-- A driver whose pins read `data` on every Data pin and `clock` on every
Clock pin, with `initPin` set. -/
def pinsDriver (data clock : Fin 256) : RotaryEncoder_Driver :=
  ⟨fun pin => if pin.clock then clock else data, true⟩

/-- What a tick reports for the record at `r`: `after.LastDirection` is `d`,
every `onChange` call for `r` among the events carries `d`, and such a call
is made when the record has a callback. -/
def DirectionReported (before : RotaryEncoder) (r : Ptr) (d : RotaryEncoder_Direction)
    (after : RotaryEncoder) (evs : List Event) : Prop :=
  after.LastDirection = d ∧
  (∀ cb d' seen, Event.onChange cb r d' seen ∈ evs → d' = d) ∧
  (before.onChange ≠ 0 → ∃ seen, Event.onChange before.onChange r d seen ∈ evs)

/-- A chain-mode registry holding one record like `sampleRecord` at address 1,
with the given range and index. -/
def rangeRegistry (min max index : RotaryEncoder_Index) : Registry :=
  ⟨Function.update zeroHeap 1 { sampleRecord with Range := ⟨min, max⟩, Index := index }, 1⟩

/-- A chain-mode registry with two linked records: the head at address 1
(pin pair 7) and, behind it, the record at address 2 (pin pair 8). -/
def twoRegistry : Registry :=
  ⟨Function.update
      (Function.update zeroHeap 2 { sampleRecord with Config := 8 })
      1 { sampleRecord with Previous := 2 },
   1⟩

/-- The index fields of a record hold `int16_t` values. -/
def WellTyped (e : RotaryEncoder) : Prop :=
  IsInt16 e.Index ∧ IsInt16 e.Range.Min ∧ IsInt16 e.Range.Max

instance (e : RotaryEncoder) : Decidable (WellTyped e) := by
  unfold WellTyped; infer_instance

/-- The index after a tick, given the direction `d` the tick computed: up by
one for ClockWise, down by one for AntiClockWise, as an `int16_t`, then
wrapped into the range. -/
def IndexFollowsDirection (before : RotaryEncoder) (d : RotaryEncoder_Direction)
    (after : RotaryEncoder) : Prop :=
  (d = RotaryEncoder_Direction_ClockWise ∧
    after.Index = wrapIntoRange before.Range (toInt16 (before.Index + 1))) ∨
  (d = RotaryEncoder_Direction_AntiClockWise ∧
    after.Index = wrapIntoRange before.Range (toInt16 (before.Index - 1)))

/-- The index after a tick, given the pin values: one more when the Data and
Clock reads differ and the index was in `[Min, Max)`, one less when the
reads are equal and the index was in `(Min, Max]`. -/
def IndexFollowsPins (drv : RotaryEncoder_Driver) (before after : RotaryEncoder) : Prop :=
  (drv.readPin ⟨before.Config, false⟩ ≠ drv.readPin ⟨before.Config, true⟩ →
    before.Range.Min ≤ before.Index → before.Index < before.Range.Max →
    after.Index = before.Index + 1) ∧
  (drv.readPin ⟨before.Config, false⟩ = drv.readPin ⟨before.Config, true⟩ →
    before.Range.Min < before.Index → before.Index ≤ before.Range.Max →
    after.Index = before.Index - 1)

/-- The registry after `add(1, 7)` on the empty registry over `zeroHeap`,
with both pins of pair 7 reading 1. -/
def oneAdded : Registry :=
  ⟨Function.update zeroHeap 1
      { zeroRecord with Config := 7, State := 3, Configured := true, Enabled := true }, 1⟩

/-- The registry after `add(2, 8)` on `oneAdded`, with both pins of pair 8
reading 1. -/
def twoAdded : Registry :=
  ⟨Function.update oneAdded.heap 2
      { zeroRecord with Previous := 1, Config := 8, State := 3, Configured := true,
                        Enabled := true }, 2⟩

/-- The registry after a second `add(1, 7)` on `oneAdded`. -/
def addedAgain : Registry :=
  ⟨Function.update oneAdded.heap 1
      { zeroRecord with Previous := 1, Config := 7, State := 3, Configured := true,
                        Enabled := true }, 1⟩

/-- Registry states produced from the empty registry (over initial memory
`heap₀`) by calls of `RotaryEncoder_add` and `RotaryEncoder_remove` on
non-null records, every `add` being made on a record that is not linked at
the time of the call. -/
inductive Chain.Reachable (drv : RotaryEncoder_Driver) (heap₀ : Heap) : Registry → Prop
  | init : Chain.Reachable drv heap₀ (Registry.init heap₀)
  | add {reg reg' : Registry} {encoder config : Ptr} {ret : Nat} {evs : List Event} :
      Chain.Reachable drv heap₀ reg → encoder ≠ ROTARY_ENCODER_NULL → ¬ Linked reg encoder →
      Chain.RotaryEncoder_add drv reg encoder config = .ok (reg', ret, evs) →
      Chain.Reachable drv heap₀ reg'
  | remove {reg reg' : Registry} {encoder : Ptr} {fuel ret : Nat} :
      Chain.Reachable drv heap₀ reg → encoder ≠ ROTARY_ENCODER_NULL →
      Chain.RotaryEncoder_remove fuel reg encoder = .ok (reg', ret) →
      Chain.Reachable drv heap₀ reg'

/-- Successive ticks in chain mode, one call of `RotaryEncoder_handle` per
element of `drvs`; the pin values of each tick are those of its driver. -/
def Chain.ticks (enableFlag : Bool) (fuel : Nat) :
    List RotaryEncoder_Driver → Registry → Except Fault (Registry × List Event)
  | [], reg => .ok (reg, [])
  | drv :: rest, reg =>
    match Chain.RotaryEncoder_handle enableFlag drv fuel reg with
    | .ok (reg1, evs1) =>
      match Chain.ticks enableFlag fuel rest reg1 with
      | .ok (reg2, evs2) => .ok (reg2, evs1 ++ evs2)
      | .error f => .error f
    | .error f => .error f

/-- Successive ticks in array mode, one call of `RotaryEncoder_handle` per
element of `drvs`. -/
def Fixed.ticks (enableFlag : Bool) (MAX_NUM : Nat) (encoders : Ptr) :
    List RotaryEncoder_Driver → Heap → Heap × List Event
  | [], heap => (heap, [])
  | drv :: rest, heap =>
    let first := Fixed.RotaryEncoder_handle enableFlag drv MAX_NUM encoders heap
    let others := Fixed.ticks enableFlag MAX_NUM encoders rest first.1
    (others.1, first.2 ++ others.2)

/-- The index of a record lies inside its range. -/
def IndexInRange (e : RotaryEncoder) : Prop :=
  e.Range.Min ≤ e.Index ∧ e.Index ≤ e.Range.Max

instance (e : RotaryEncoder) : Decidable (IndexInRange e) := by
  unfold IndexInRange; infer_instance

/-- What the callback of the record at `r` observes in a tick: it is called
through the record's callback pointer with a direction `d`, and every call
made for `r` in the tick is that call; the record it sees has the index the
tick leaves behind, which is the stepped and wrapped index, and the
`LastDirection` from before the tick; after the tick `LastDirection` is `d`. -/
def CallbackObserves (before : RotaryEncoder) (r : Ptr) (after : RotaryEncoder)
    (evs : List Event) : Prop :=
  ∃ d seen,
    Event.onChange before.onChange r d seen ∈ evs ∧
    (∀ cb d' seen', Event.onChange cb r d' seen' ∈ evs →
      cb = before.onChange ∧ d' = d ∧ seen' = seen) ∧
    seen.Index = after.Index ∧
    IndexFollowsDirection before d seen ∧
    seen.LastDirection = before.LastDirection ∧
    after.LastDirection = d

/-- Every field of a record other than `Index` and `LastDirection` is the
same in `after` as in `before`. -/
def SameButIndexAndDirection (before after : RotaryEncoder) : Prop :=
  after.Previous = before.Previous ∧ after.Args = before.Args ∧
  after.Config = before.Config ∧ after.onChange = before.onChange ∧
  after.Range = before.Range ∧ after.State = before.State ∧
  after.NotActive = before.NotActive ∧ after.IsClockWise = before.IsClockWise ∧
  after.Configured = before.Configured ∧ after.Enabled = before.Enabled

/-- Memory with a fresh record at address 1 (callback 5, range `[0, 3]`,
not configured) and all-zero records elsewhere. -/
def freshHeap : Heap :=
  Function.update zeroHeap 1 { zeroRecord with onChange := 5, Range := ⟨0, 3⟩ }

/-- The registry after `add(1, 7)` on the empty registry over `freshHeap`,
with both pins of pair 7 reading 1. -/
def freshAdded : Registry :=
  ⟨Function.update freshHeap 1
      { zeroRecord with onChange := 5, Range := ⟨0, 3⟩, Config := 7, State := 3,
                        Configured := true, Enabled := true }, 1⟩

/-- A chain-mode registry holding `sampleRecord` at address 1 after
`RotaryEncoder_setEnabled(encoder, 0)`. -/
def disabledRegistry : Registry :=
  ⟨Function.update zeroHeap 1 (RotaryEncoder_setEnabled sampleRecord 0), 1⟩

/-! ## Chains: basic facts -/

theorem ChainFrom.congr {h h' : Heap} {l : List Ptr} :
    ∀ {p : Ptr}, (∀ a ∈ l, (h' a).Previous = (h a).Previous) →
      ChainFrom h p l → ChainFrom h' p l := by
  induction l with
  | nil => intro p _ hc; exact hc
  | cons x xs ih =>
    intro p hprev hc
    obtain ⟨hp, hx, hrest⟩ := hc
    refine ⟨hp, hx, ?_⟩
    rw [hprev x (List.mem_cons_self x xs)]
    exact ih (fun a ha => hprev a (List.mem_cons_of_mem x ha)) hrest

theorem ChainFrom.unique {h : Heap} {l₁ : List Ptr} :
    ∀ {l₂ : List Ptr} {p : Ptr}, ChainFrom h p l₁ → ChainFrom h p l₂ → l₁ = l₂ := by
  induction l₁ with
  | nil =>
    intro l₂ p h1 h2
    cases l₂ with
    | nil => rfl
    | cons y ys =>
      obtain ⟨hp, hy, _⟩ := h2
      exact absurd (hp ▸ h1) hy
  | cons x xs ih =>
    intro l₂ p h1 h2
    obtain ⟨hp, hx, hrest⟩ := h1
    cases l₂ with
    | nil => exact absurd (hp ▸ h2) hx
    | cons y ys =>
      obtain ⟨hp', _, hrest'⟩ := h2
      have hxy : x = y := hp.symm.trans hp'
      subst hxy
      rw [ih hrest hrest']

theorem ChainFrom.ne_null {h : Heap} {l : List Ptr} :
    ∀ {p : Ptr}, ChainFrom h p l → ∀ a ∈ l, a ≠ ROTARY_ENCODER_NULL := by
  induction l with
  | nil => intro p _ a ha; cases ha
  | cons x xs ih =>
    intro p hc a ha
    obtain ⟨_, hx, hrest⟩ := hc
    rcases List.mem_cons.1 ha with rfl | ha
    · exact hx
    · exact ih hrest a ha

theorem ChainFrom.suffix {h : Heap} {l₁ : List Ptr} :
    ∀ {p x : Ptr} {l₂ : List Ptr}, ChainFrom h p (l₁ ++ x :: l₂) →
      ChainFrom h x (x :: l₂) := by
  induction l₁ with
  | nil =>
    intro p x l₂ hc
    obtain ⟨_, hx, hrest⟩ := hc
    exact ⟨rfl, hx, hrest⟩
  | cons y ys ih =>
    intro p x l₂ hc
    obtain ⟨_, _, hrest⟩ := hc
    exact ih hrest

theorem ChainFrom.nodup {h : Heap} {l : List Ptr} :
    ∀ {p : Ptr}, ChainFrom h p l → l.Nodup := by
  induction l with
  | nil => intro p _; exact List.nodup_nil
  | cons x xs ih =>
    intro p hc
    have hc' := hc
    obtain ⟨hp, hx, hrest⟩ := hc
    refine List.nodup_cons.2 ⟨?_, ih hrest⟩
    intro hmem
    obtain ⟨a, b, hab⟩ := List.append_of_mem hmem
    have hsuf : ChainFrom h x (x :: b) := by
      rw [hab] at hrest
      exact ChainFrom.suffix hrest
    have hfull : ChainFrom h x (x :: xs) := ⟨rfl, hx, hrest⟩
    have := ChainFrom.unique hsuf hfull
    have hlen := congrArg List.length this
    rw [hab] at hlen
    simp at hlen
    omega

/-! ## The tick: what the loops compute -/

theorem stepIndex_frame (e : RotaryEncoder) (d : RotaryEncoder_Direction) :
    stepIndex e d = { e with Index := (stepIndex e d).Index } := by
  unfold stepIndex
  dsimp only
  split_ifs <;> rfl

theorem stepIndex_index (e : RotaryEncoder) (d : RotaryEncoder_Direction) :
    (stepIndex e d).Index =
      wrapIntoRange e.Range (toInt16 (e.Index + (if d ≠ 0 then -1 else 1))) := by
  unfold stepIndex wrapIntoRange
  dsimp only
  split_ifs <;> rfl

theorem decode_fst (drv : RotaryEncoder_Driver) (p : Ptr) (e : RotaryEncoder) :
    (decode drv p e).1 =
      { e with Index := (stepIndex e (readDirection drv e)).Index,
               LastDirection := readDirection drv e % 2 } := by
  unfold decode
  dsimp only
  rw [stepIndex_frame]

theorem handleRecord_previous (enableFlag : Bool) (drv : RotaryEncoder_Driver) (p : Ptr)
    (e : RotaryEncoder) : (handleRecord enableFlag drv p e).1.Previous = e.Previous := by
  unfold handleRecord
  split_ifs
  · rfl
  · rw [decode_fst]

theorem Chain.handleLoop_spec (enableFlag : Bool) (drv : RotaryEncoder_Driver) (l : List Ptr) :
    ∀ (heap : Heap) (p : Ptr) (fuel : Nat), ChainFrom heap p l → l.length < fuel →
      Chain.handleLoop enableFlag drv fuel heap p =
        .ok (fun a => if a ∈ l then (handleRecord enableFlag drv a (heap a)).1 else heap a,
             l.flatMap (fun a => (handleRecord enableFlag drv a (heap a)).2)) := by
  induction l with
  | nil =>
    intro heap p fuel hc hlen
    obtain ⟨n, rfl⟩ : ∃ n, fuel = n + 1 := ⟨fuel - 1, by simp at hlen; omega⟩
    have hp : p = ROTARY_ENCODER_NULL := hc
    simp [Chain.handleLoop, hp]
  | cons x xs ih =>
    intro heap p fuel hc hlen
    obtain ⟨n, rfl⟩ : ∃ n, fuel = n + 1 := ⟨fuel - 1, by simp at hlen; omega⟩
    have hnd := ChainFrom.nodup hc
    obtain ⟨hp, hx, hrest⟩ := hc
    subst hp
    have hxs : p ∉ xs := (List.nodup_cons.1 hnd).1
    have hne : ∀ a ∈ xs, a ≠ p := fun a ha h => hxs (h ▸ ha)
    have hc1 : ChainFrom
        (Function.update heap p (handleRecord enableFlag drv p (heap p)).1)
        (heap p).Previous xs := by
      refine ChainFrom.congr (fun a ha => ?_) hrest
      rw [Function.update_noteq (hne a ha)]
    have hlen' : xs.length < n := by simp at hlen; omega
    have := ih _ _ n hc1 hlen'
    simp only [Chain.handleLoop, if_neg hx, Function.update_same, handleRecord_previous, this]
    congr 2
    · funext a
      by_cases hap : a = p
      · subst hap
        simp [hxs]
      · by_cases hm : a ∈ xs
        · simp [hm, Function.update_noteq hap]
        · simp [hm, hap, Function.update_noteq hap]
    · rw [List.flatMap_cons]
      congr 1
      refine List.flatMap_congr (fun a ha => ?_)
      rw [Function.update_noteq (hne a ha)]

theorem Fixed.arrayLoop_spec (enableFlag : Bool) (drv : RotaryEncoder_Driver) :
    ∀ (len : Nat) (heap : Heap) (p : Ptr),
      Fixed.handleLoop enableFlag drv len heap p =
        (fun a => if p ≤ a ∧ a < p + len ∧ (heap a).Configured = true
                  then (handleRecord enableFlag drv a (heap a)).1 else heap a,
         (List.range len).flatMap (fun i =>
            if (heap (p + i)).Configured = true
            then (handleRecord enableFlag drv (p + i) (heap (p + i))).2 else [])) := by
  intro len
  induction len with
  | zero =>
    intro heap p
    simp only [Fixed.handleLoop, List.range_zero, List.flatMap_nil]
    congr 1
    funext a
    have e1 : ¬ (p ≤ a ∧ a < p + 0 ∧ (heap a).Configured = true) := by
      intro h
      exact absurd h.2.1 (Nat.not_lt.2 h.1)
    rw [if_neg e1]
  | succ n ih =>
    intro heap p
    have arith : ∀ (p a n : Nat), (p + 1 ≤ a ∧ a < p + 1 + n) ↔
        (a ≠ p ∧ p ≤ a ∧ a < p + (n + 1)) := by
      intro p a n; omega
    have arith2 : ∀ (p i : Nat), p + 1 + i ≠ p ∧ p + 1 + i = p + (i + 1) := by
      intro p i; omega
    simp only [Fixed.handleLoop, ih]
    congr 1
    · funext a
      by_cases hap : a = p
      · subst hap
        have e2 : ¬ (a + 1 ≤ a ∧ a < a + 1 + n ∧
            (Function.update heap a (if (heap a).Configured = true
              then handleRecord enableFlag drv a (heap a) else (heap a, [])).1 a).Configured
              = true) :=
          fun h => ((arith a a n).1 ⟨h.1, h.2.1⟩).1 rfl
        rw [if_neg e2, Function.update_same]
        by_cases hc : (heap a).Configured = true
        · have e1 : a ≤ a ∧ a < a + (n + 1) ∧ (heap a).Configured = true :=
            ⟨Nat.le_refl a, Nat.lt_add_of_pos_right (Nat.succ_pos n), hc⟩
          rw [if_pos e1, if_pos hc]
        · have e1 : ¬ (a ≤ a ∧ a < a + (n + 1) ∧ (heap a).Configured = true) :=
            fun h => hc h.2.2
          rw [if_neg e1, if_neg hc]
      · rw [Function.update_noteq hap]
        by_cases hr : p ≤ a ∧ a < p + (n + 1) ∧ (heap a).Configured = true
        · have hr' : p + 1 ≤ a ∧ a < p + 1 + n ∧ (heap a).Configured = true :=
            ⟨((arith p a n).2 ⟨hap, hr.1, hr.2.1⟩).1, ((arith p a n).2 ⟨hap, hr.1, hr.2.1⟩).2,
              hr.2.2⟩
          rw [if_pos hr, if_pos hr']
        · have hr' : ¬ (p + 1 ≤ a ∧ a < p + 1 + n ∧ (heap a).Configured = true) :=
            fun h => hr ⟨((arith p a n).1 ⟨h.1, h.2.1⟩).2.1,
              ((arith p a n).1 ⟨h.1, h.2.1⟩).2.2, h.2.2⟩
          rw [if_neg hr, if_neg hr']
    · rw [List.range_succ_eq_map, List.flatMap_cons, List.flatMap_map]
      congr 1
      · by_cases hc : (heap p).Configured = true <;> simp [hc]
      · refine List.flatMap_congr (fun i _ => ?_)
        simp only [Function.comp, Function.update_noteq (arith2 p i).1]
        rw [(arith2 p i).2]

theorem stepIndex_onChange (e : RotaryEncoder) (d : RotaryEncoder_Direction) :
    (stepIndex e d).onChange = e.onChange := by
  rw [stepIndex_frame]

theorem mem_decode_onChange (drv : RotaryEncoder_Driver) (a : Ptr) (e : RotaryEncoder)
    (cb r : Ptr) (d : RotaryEncoder_Direction) (seen : RotaryEncoder) :
    Event.onChange cb r d seen ∈ (decode drv a e).2 ↔
      a = r ∧ e.onChange ≠ 0 ∧ cb = e.onChange ∧ d = readDirection drv e ∧
        seen = stepIndex e (readDirection drv e) := by
  unfold decode
  simp only [stepIndex_onChange]
  by_cases hcb : e.onChange = 0
  · simp [hcb]
  · simp only [hcb, ne_eq, not_false_eq_true, if_true, List.cons_append, List.nil_append,
      List.mem_cons, List.mem_singleton, Event.onChange.injEq, false_or, reduceCtorEq,
      List.mem_nil_iff, or_false]
    constructor
    · rintro ⟨h1, h2, h3, h4⟩
      exact ⟨h2.symm, trivial, h1, h3, h4⟩
    · rintro ⟨h1, _, h3, h4, h5⟩
      exact ⟨h3, h1.symm, h4, h5⟩

theorem mem_handleRecord_onChange (enableFlag : Bool) (drv : RotaryEncoder_Driver) (a : Ptr)
    (e : RotaryEncoder) (cb r : Ptr) (d : RotaryEncoder_Direction) (seen : RotaryEncoder) :
    Event.onChange cb r d seen ∈ (handleRecord enableFlag drv a e).2 →
      a = r ∧ e.onChange ≠ 0 ∧ cb = e.onChange ∧ d = readDirection drv e ∧
        seen = stepIndex e (readDirection drv e) := by
  unfold handleRecord
  split_ifs
  · intro h; cases h
  · exact (mem_decode_onChange drv a e cb r d seen).1

theorem handleRecord_eligible (enableFlag : Bool) (drv : RotaryEncoder_Driver) (a : Ptr)
    (e : RotaryEncoder) (h : enableFlag = true → e.Enabled = true) :
    handleRecord enableFlag drv a e = decode drv a e := by
  unfold handleRecord
  cases enableFlag
  · simp
  · simp [h rfl]

/-- A chain-mode tick over a well-formed chain returns, leaves the head alone
and applies the loop body once to every linked record. -/
theorem Chain.handle_spec (enableFlag : Bool) (drv : RotaryEncoder_Driver) (reg : Registry)
    (l : List Ptr) (fuel : Nat)
    (hc : ChainFrom reg.heap reg.lastEncoder l) (hfuel : l.length < fuel) :
    Chain.RotaryEncoder_handle enableFlag drv fuel reg =
      .ok (⟨fun a => if a ∈ l then (handleRecord enableFlag drv a (reg.heap a)).1
                     else reg.heap a, reg.lastEncoder⟩,
           l.flatMap (fun a => (handleRecord enableFlag drv a (reg.heap a)).2)) := by
  unfold Chain.RotaryEncoder_handle
  rw [Chain.handleLoop_spec enableFlag drv l _ _ _ hc hfuel]

/-- What a chain-mode tick does to a linked, eligible record `r`: the tick
returns, the record becomes `(decode drv r _).1`, and the callback events
for `r` are those of `decode`. -/
theorem Chain.handle_at (enableFlag : Bool) (drv : RotaryEncoder_Driver) (reg : Registry)
    (l : List Ptr) (fuel : Nat) (r : Ptr)
    (hc : ChainFrom reg.heap reg.lastEncoder l) (hfuel : l.length < fuel) (hr : r ∈ l)
    (hel : Chain.Eligible enableFlag (reg.heap r)) :
    ∃ reg' evs, Chain.RotaryEncoder_handle enableFlag drv fuel reg = .ok (reg', evs) ∧
      reg'.heap r = (decode drv r (reg.heap r)).1 ∧
      (∀ ev ∈ (decode drv r (reg.heap r)).2, ev ∈ evs) ∧
      (∀ cb d seen, Event.onChange cb r d seen ∈ evs →
        Event.onChange cb r d seen ∈ (decode drv r (reg.heap r)).2) := by
  refine ⟨_, _, Chain.handle_spec enableFlag drv reg l fuel hc hfuel, ?_, ?_, ?_⟩
  · simp only [hr, if_true]
    rw [handleRecord_eligible enableFlag drv r _ hel]
  · intro ev hev
    refine List.mem_flatMap.2 ⟨r, hr, ?_⟩
    rw [handleRecord_eligible enableFlag drv r _ hel]
    exact hev
  · intro cb d seen hev
    obtain ⟨a, _, ha⟩ := List.mem_flatMap.1 hev
    have := mem_handleRecord_onChange enableFlag drv a _ cb r d seen ha
    obtain ⟨rfl, h2, h3, h4, h5⟩ := this
    exact (mem_decode_onChange drv a _ cb a d seen).2 ⟨rfl, h2, h3, h4, h5⟩

/-- What an array-mode tick does to an eligible slot. -/
theorem Fixed.handle_slot (enableFlag : Bool) (drv : RotaryEncoder_Driver) (MAX_NUM : Nat)
    (encoders : Ptr) (heap : Heap) (i : Nat) (hi : i < MAX_NUM % 256)
    (hel : Fixed.Eligible enableFlag (heap (encoders + i))) :
    (Fixed.RotaryEncoder_handle enableFlag drv MAX_NUM encoders heap).1 (encoders + i) =
        (decode drv (encoders + i) (heap (encoders + i))).1 ∧
      (∀ ev ∈ (decode drv (encoders + i) (heap (encoders + i))).2,
        ev ∈ (Fixed.RotaryEncoder_handle enableFlag drv MAX_NUM encoders heap).2) ∧
      (∀ cb d seen, Event.onChange cb (encoders + i) d seen ∈
          (Fixed.RotaryEncoder_handle enableFlag drv MAX_NUM encoders heap).2 →
        Event.onChange cb (encoders + i) d seen ∈
          (decode drv (encoders + i) (heap (encoders + i))).2) := by
  unfold Fixed.RotaryEncoder_handle
  rw [Fixed.arrayLoop_spec]
  have hrange : encoders ≤ encoders + i ∧ encoders + i < encoders + MAX_NUM % 256 ∧
      (heap (encoders + i)).Configured = true :=
    ⟨Nat.le_add_right _ _, Nat.add_lt_add_left hi _, hel.1⟩
  refine ⟨?_, ?_, ?_⟩
  · simp only [hrange, and_self, if_true]
    rw [handleRecord_eligible enableFlag drv _ _ hel.2]
  · intro ev hev
    refine List.mem_flatMap.2 ⟨i, List.mem_range.2 hi, ?_⟩
    rw [if_pos hel.1, handleRecord_eligible enableFlag drv _ _ hel.2]
    exact hev
  · intro cb d seen hev
    obtain ⟨j, _, hj⟩ := List.mem_flatMap.1 hev
    by_cases hcj : (heap (encoders + j)).Configured = true
    · rw [if_pos hcj] at hj
      have := mem_handleRecord_onChange enableFlag drv _ _ cb _ d seen hj
      obtain ⟨h1, h2, h3, h4, h5⟩ := this
      rw [h1] at h2 h3 h4 h5
      exact (mem_decode_onChange drv _ _ cb _ d seen).2 ⟨rfl, h2, h3, h4, h5⟩
    · rw [if_neg hcj] at hj
      cases hj

theorem decode_direction (drv : RotaryEncoder_Driver) (r : Ptr) (e : RotaryEncoder) :
    DirectionReported e r (readDirection drv e) (decode drv r e).1 (decode drv r e).2 := by
  refine ⟨?_, ?_, ?_⟩
  · rw [decode_fst]
    unfold readDirection
    split_ifs <;> rfl
  · intro cb d seen h
    exact ((mem_decode_onChange drv r e cb r d seen).1 h).2.2.2.1
  · intro hcb
    exact ⟨_, (mem_decode_onChange drv r e _ r _ _).2 ⟨rfl, hcb, rfl, rfl, rfl⟩⟩

theorem DirectionReported.of_tick {e : RotaryEncoder} {r : Ptr} {d : RotaryEncoder_Direction}
    {a₁ a₂ : RotaryEncoder} {evs₁ evs₂ : List Event} (h : DirectionReported e r d a₁ evs₁)
    (ha : a₂ = a₁) (hsub : ∀ ev ∈ evs₁, ev ∈ evs₂)
    (hback : ∀ cb d seen, Event.onChange cb r d seen ∈ evs₂ →
      Event.onChange cb r d seen ∈ evs₁) :
    DirectionReported e r d a₂ evs₂ := by
  subst ha
  refine ⟨h.1, fun cb d' seen hev => h.2.1 cb d' seen (hback cb d' seen hev), fun hcb => ?_⟩
  obtain ⟨seen, hs⟩ := h.2.2 hcb
  exact ⟨seen, hsub _ hs⟩

/-! ## C1: the direction decoded from the two pin values -/

/-- C1, counterexample: with Data and Clock both reading 1, the tick stores
AntiClockWise in LastDirection and passes AntiClockWise to the callback,
where the claim asks for ClockWise. -/
theorem handle_equal_pins_report_anticlockwise :
    (pinsDriver 1 1).readPin ⟨sampleRecord.Config, false⟩ =
        (pinsDriver 1 1).readPin ⟨sampleRecord.Config, true⟩ ∧
    RotaryEncoder_Direction_AntiClockWise ≠ RotaryEncoder_Direction_ClockWise ∧
    ∃ reg' seen,
      Chain.RotaryEncoder_handle true (pinsDriver 1 1) 2 sampleRegistry =
        .ok (reg', [Event.readPin ⟨7, false⟩, Event.readPin ⟨7, true⟩,
                    Event.onChange 5 1 RotaryEncoder_Direction_AntiClockWise seen]) ∧
      (reg'.heap 1).LastDirection = RotaryEncoder_Direction_AntiClockWise :=
  ⟨rfl, by decide, _, _, rfl, rfl⟩

/-- C1, amended: for every eligible record, in chain mode and in array mode,
the direction that one tick stores in LastDirection and passes to the
callback is AntiClockWise (1) when the Data read equals the Clock read and
ClockWise (0) when the two reads differ. -/
theorem handle_direction_from_pins (enableFlag : Bool) (drv : RotaryEncoder_Driver) :
    (∀ (reg : Registry) (l : List Ptr) (fuel : Nat) (r : Ptr),
      ChainFrom reg.heap reg.lastEncoder l → l.length < fuel → r ∈ l →
      Chain.Eligible enableFlag (reg.heap r) →
      ∃ reg' evs, Chain.RotaryEncoder_handle enableFlag drv fuel reg = .ok (reg', evs) ∧
        DirectionReported (reg.heap r) r
          (if drv.readPin ⟨(reg.heap r).Config, false⟩ = drv.readPin ⟨(reg.heap r).Config, true⟩
           then RotaryEncoder_Direction_AntiClockWise else RotaryEncoder_Direction_ClockWise)
          (reg'.heap r) evs) ∧
    (∀ (MAX_NUM : Nat) (encoders : Ptr) (heap : Heap) (i : Nat), i < MAX_NUM % 256 →
      Fixed.Eligible enableFlag (heap (encoders + i)) →
      DirectionReported (heap (encoders + i)) (encoders + i)
        (if drv.readPin ⟨(heap (encoders + i)).Config, false⟩ =
            drv.readPin ⟨(heap (encoders + i)).Config, true⟩
         then RotaryEncoder_Direction_AntiClockWise else RotaryEncoder_Direction_ClockWise)
        ((Fixed.RotaryEncoder_handle enableFlag drv MAX_NUM encoders heap).1 (encoders + i))
        (Fixed.RotaryEncoder_handle enableFlag drv MAX_NUM encoders heap).2) := by
  constructor
  · intro reg l fuel r hc hfuel hr hel
    obtain ⟨reg', evs, hrun, hrec, hsub, hback⟩ :=
      Chain.handle_at enableFlag drv reg l fuel r hc hfuel hr hel
    exact ⟨reg', evs, hrun, (decode_direction drv r (reg.heap r)).of_tick hrec hsub hback⟩
  · intro MAX_NUM encoders heap i hi hel
    obtain ⟨hrec, hsub, hback⟩ := Fixed.handle_slot enableFlag drv MAX_NUM encoders heap i hi hel
    exact (decode_direction drv _ _).of_tick hrec hsub hback

/-- C1, amended, at the registry of the spec scenario (Data = 1, Clock = 0)
and at a one-slot array holding the same record. -/
theorem handle_direction_from_pins_witness :
    (ChainFrom sampleRegistry.heap sampleRegistry.lastEncoder [1] ∧
      Chain.Eligible true (sampleRegistry.heap 1) ∧
      ∃ reg' evs, Chain.RotaryEncoder_handle true (pinsDriver 1 0) 2 sampleRegistry
          = .ok (reg', evs) ∧
        DirectionReported (sampleRegistry.heap 1) 1 RotaryEncoder_Direction_ClockWise
          (reg'.heap 1) evs) ∧
    (Fixed.Eligible true (sampleRegistry.heap (1 + 0)) ∧
      DirectionReported (sampleRegistry.heap (1 + 0)) (1 + 0)
        RotaryEncoder_Direction_ClockWise
        ((Fixed.RotaryEncoder_handle true (pinsDriver 1 0) 1 1 sampleRegistry.heap).1 (1 + 0))
        (Fixed.RotaryEncoder_handle true (pinsDriver 1 0) 1 1 sampleRegistry.heap).2) :=
  ⟨⟨by decide, fun _ => rfl,
     (handle_direction_from_pins true (pinsDriver 1 0)).1 sampleRegistry [1] 2 1
       (by decide) (by decide) (by decide) (fun _ => rfl)⟩,
   ⟨⟨rfl, fun _ => rfl⟩,
     (handle_direction_from_pins true (pinsDriver 1 0)).2 1 1 sampleRegistry.heap 0
       (by decide) ⟨rfl, fun _ => rfl⟩⟩⟩

/-! ## C2: wraparound of the index at the bounds of the range -/

theorem toInt16_of_fits (x : Int) (hlo : -32768 ≤ x) (hhi : x ≤ 32767) : toInt16 x = x := by
  unfold toInt16
  omega

theorem wrap_step_inside_int16 (lo hi x : Int) (hlo : lo ≤ x) (hhi : x ≤ hi)
    (hmin : -32768 < lo) (hmax : hi < 32767) :
    (if toInt16 (x + 1) > hi then lo else if toInt16 (x + 1) < lo then hi
      else toInt16 (x + 1)) = (if x = hi then lo else x + 1) ∧
    (if toInt16 (x + -1) > hi then lo else if toInt16 (x + -1) < lo then hi
      else toInt16 (x + -1)) = (if x = lo then hi else x - 1) := by
  rw [toInt16_of_fits (x + 1) (by omega) (by omega),
    toInt16_of_fits (x + -1) (by omega) (by omega)]
  constructor <;> split_ifs <;> omega

/-- Away from the ends of `int16_t` the wrap is as the spec describes it: a
step up from `Max < 32767` gives `Min`, a step down from `Min > -32768`
gives `Max`, and any other step inside the range moves the index by one. -/
theorem stepIndex_wraps_inside_int16 (e : RotaryEncoder)
    (hlo : e.Range.Min ≤ e.Index) (hhi : e.Index ≤ e.Range.Max)
    (hmin : -32768 < e.Range.Min) (hmax : e.Range.Max < 32767) :
    (stepIndex e 0).Index = (if e.Index = e.Range.Max then e.Range.Min else e.Index + 1) ∧
    (stepIndex e 1).Index = (if e.Index = e.Range.Min then e.Range.Max else e.Index - 1) := by
  rw [stepIndex_index, stepIndex_index]
  have key := wrap_step_inside_int16 e.Range.Min e.Range.Max e.Index hlo hhi hmin hmax
  unfold wrapIntoRange
  simp only [ne_eq, not_true_eq_false, if_false, one_ne_zero, not_false_eq_true, if_true]
  exact key

/-- C2, the code at the failing inputs: with Range = [0, 32767] and
Index = 32767 a tick that steps the index up (Data = 1, Clock = 0) leaves
the index at 32767 instead of wrapping to Min = 0; with Range = [-32768, 9]
and Index = -32768 a tick that steps the index down (Data = Clock) leaves it
at -32768 instead of wrapping to Max = 9.  The spec witnesses with
Range = [0, 9] behave as claimed. -/
theorem handle_wrap_fails_at_int16_bounds :
    (∃ reg' evs, Chain.RotaryEncoder_handle true (pinsDriver 1 0) 2
        (rangeRegistry 0 32767 32767) = .ok (reg', evs) ∧ (reg'.heap 1).Index = 32767) ∧
    (∃ reg' evs, Chain.RotaryEncoder_handle true (pinsDriver 1 1) 2
        (rangeRegistry (-32768) 9 (-32768)) = .ok (reg', evs) ∧
        (reg'.heap 1).Index = -32768) ∧
    (∃ reg' evs, Chain.RotaryEncoder_handle true (pinsDriver 1 0) 2
        (rangeRegistry 0 9 9) = .ok (reg', evs) ∧ (reg'.heap 1).Index = 0) ∧
    (∃ reg' evs reg'' evs', Chain.RotaryEncoder_handle true (pinsDriver 1 1) 2
        (rangeRegistry 0 9 0) = .ok (reg', evs) ∧ (reg'.heap 1).Index = 9 ∧
        Chain.RotaryEncoder_handle true (pinsDriver 1 1) 2 reg' = .ok (reg'', evs') ∧
        (reg''.heap 1).Index = 8) :=
  ⟨⟨_, _, rfl, by decide⟩, ⟨_, _, rfl, by decide⟩, ⟨_, _, rfl, by decide⟩,
    ⟨_, _, _, _, rfl, by decide, rfl, by decide⟩⟩

/-! ## C3: `RotaryEncoder_setIndex` -/

/-- While the record's current index lies inside its range, the call stores
its argument as it is. -/
theorem setIndex_stores_argument (e : RotaryEncoder) (v : RotaryEncoder_Index)
    (hlo : e.Range.Min ≤ e.Index) (hhi : e.Index ≤ e.Range.Max) :
    RotaryEncoder_getIndex (RotaryEncoder_setIndex e v) = v := by
  unfold RotaryEncoder_getIndex RotaryEncoder_setIndex
  simp only [gt_iff_lt, not_lt.2 hhi, not_lt.2 hlo, if_false]

/-- C3, the code at the failing input: with Range = [0, 9] and Index = 5,
`RotaryEncoder_setIndex(encoder, 100)` leaves getIndex at 100, above Max,
and `RotaryEncoder_setIndex(encoder, -7)` leaves it at -7, below Min. -/
theorem setIndex_does_not_clamp_argument :
    RotaryEncoder_getIndex
      (RotaryEncoder_setIndex { sampleRecord with Range := ⟨0, 9⟩, Index := 5 } 100) = 100 ∧
    RotaryEncoder_getIndex
      (RotaryEncoder_setIndex { sampleRecord with Range := ⟨0, 9⟩, Index := 5 } (-7)) = -7 :=
  ⟨by decide, by decide⟩

/-! ## C4: removal of a linked record -/

/-- C4, the code at the failing input: in the chain 1 → 2 the head is
removed.  The call returns 1, but `lastEncoder` still points to record 1,
whose `Previous` is now null: record 1 is still reachable and is still
found, record 2 is no longer reachable, is no longer found and is no longer
decoded by a tick. -/
theorem remove_head_keeps_head_and_drops_rest :
    ChainFrom twoRegistry.heap twoRegistry.lastEncoder [1, 2] ∧
    ∃ reg', Chain.RotaryEncoder_remove 3 twoRegistry 1 = .ok (reg', 1) ∧
      reg'.lastEncoder = 1 ∧
      ChainFrom reg'.heap reg'.lastEncoder [1] ∧
      Chain.RotaryEncoder_find 3 reg' 7 = .ok 1 ∧
      Chain.RotaryEncoder_find 3 twoRegistry 8 = .ok 2 ∧
      Chain.RotaryEncoder_find 3 reg' 8 = .ok ROTARY_ENCODER_NULL ∧
      ∃ reg'' evs, Chain.RotaryEncoder_handle false (pinsDriver 1 0) 3 reg' = .ok (reg'', evs) ∧
        reg''.heap 2 = reg'.heap 2 ∧
        (reg'.heap 2).Configured = true ∧
        ∀ cb d seen, Event.onChange cb 2 d seen ∉ evs :=
  ⟨by decide, _, rfl, rfl, by decide, rfl, rfl, rfl, _, _, rfl, rfl, rfl, by
    intro cb d seen h
    rw [List.append_nil] at h
    exact absurd (mem_handleRecord_onChange _ _ _ _ _ _ _ _ h).1 (by decide)⟩

/-! ## Removal from a chain -/

theorem Chain.unlink_other (heap : Heap) (x r a : Ptr) (hx : a ≠ x) (hr : a ≠ r) :
    Chain.unlink heap x r a = heap a := by
  unfold Chain.unlink
  dsimp only
  rw [Function.update_noteq hr, Function.update_noteq hx]

theorem Chain.unlink_pred_previous (heap : Heap) (x r : Ptr) (hxr : x ≠ r) :
    (Chain.unlink heap x r x).Previous = (heap r).Previous := by
  unfold Chain.unlink
  dsimp only
  rw [Function.update_noteq hxr, Function.update_same]

/-- Unlinking `r` behind its predecessor `x` turns the chain
`a ++ x :: r :: b` into `a ++ x :: b`. -/
theorem Chain.unlink_chain {heap : Heap} {x r : Ptr} {b : List Ptr} (a : List Ptr) :
    ∀ {p : Ptr}, ChainFrom heap p (a ++ x :: r :: b) →
      ChainFrom (Chain.unlink heap x r) p (a ++ x :: b) := by
  induction a with
  | nil =>
    intro p hc
    have hnd := ChainFrom.nodup hc
    obtain ⟨hp, hx, hrest⟩ := hc
    obtain ⟨_, _, hb⟩ := hrest
    have hxr : x ≠ r := fun h => (List.nodup_cons.1 hnd).1 (h ▸ List.mem_cons_self _ _)
    have hxb : x ∉ b := fun h => (List.nodup_cons.1 hnd).1 (List.mem_cons_of_mem _ h)
    have hrb : r ∉ b := (List.nodup_cons.1 (List.nodup_cons.1 hnd).2).1
    refine ⟨hp, hx, ?_⟩
    rw [Chain.unlink_pred_previous heap x r hxr]
    refine ChainFrom.congr (fun c hcb => ?_) hb
    rw [Chain.unlink_other heap x r c (fun h => hxb (h ▸ hcb)) (fun h => hrb (h ▸ hcb))]
  | cons y ys ih =>
    intro p hc
    have hnd := ChainFrom.nodup hc
    obtain ⟨hp, hy, hrest⟩ := hc
    have hy' : y ∉ ys ++ x :: r :: b := (List.nodup_cons.1 hnd).1
    have hyx : y ≠ x := fun h => hy' (by simp [h])
    have hyr : y ≠ r := fun h => hy' (by simp [h])
    refine ⟨hp, hy, ?_⟩
    rw [Chain.unlink_other heap x r y hyx hyr]
    exact ih hrest

/-- The loop of `RotaryEncoder_remove` stops at the predecessor of `remove`. -/
theorem Chain.removeLoop_found {heap : Heap} {x r : Ptr} {b : List Ptr} (a : List Ptr) :
    ∀ {p : Ptr} {fuel : Nat}, ChainFrom heap p (a ++ x :: r :: b) →
      (a ++ x :: r :: b).length < fuel →
      Chain.removeLoop r fuel heap p = .ok (Chain.unlink heap x r, 1) := by
  induction a with
  | nil =>
    intro p fuel hc hfuel
    obtain ⟨n, rfl⟩ : ∃ n, fuel = n + 1 := ⟨fuel - 1, by simp at hfuel; omega⟩
    obtain ⟨hp, hx, hrest⟩ := hc
    obtain ⟨hpr, hr, _⟩ := hrest
    subst hp
    simp only [Chain.removeLoop, if_neg hx, hpr, if_true, if_neg hr]
  | cons y ys ih =>
    intro p fuel hc hfuel
    obtain ⟨n, rfl⟩ : ∃ n, fuel = n + 1 := ⟨fuel - 1, by simp at hfuel; omega⟩
    have hnd := ChainFrom.nodup hc
    obtain ⟨hp, hy, hrest⟩ := hc
    subst hp
    have hne : r ≠ (heap p).Previous := by
      intro h
      have hmem : r ∈ ys ++ x :: r :: b := by simp
      have hnd' := (List.nodup_cons.1 hnd).2
      cases ys with
      | nil =>
        obtain ⟨hq, _, _⟩ := hrest
        rw [← h] at hq
        exact (List.nodup_cons.1 hnd').1 (hq ▸ List.mem_cons_self _ _)
      | cons z zs =>
        obtain ⟨hq, _, _⟩ := hrest
        rw [← h] at hq
        refine (List.nodup_cons.1 hnd').1 ?_
        rw [← hq]
        simp
    have hlen : (ys ++ x :: r :: b).length < n := by
      simp only [List.length_cons, List.length_append] at hfuel ⊢
      omega
    simp only [Chain.removeLoop, if_neg hy, if_neg hne]
    exact ih hrest hlen

/-- The loop of `RotaryEncoder_remove` finds nothing when `remove` is a
non-null record outside the chain. -/
theorem Chain.removeLoop_absent {heap : Heap} {r : Ptr} (hr : r ≠ ROTARY_ENCODER_NULL)
    (l : List Ptr) :
    ∀ {p : Ptr} {fuel : Nat}, ChainFrom heap p l → l.length < fuel → r ∉ l →
      Chain.removeLoop r fuel heap p = .ok (heap, 0) := by
  induction l with
  | nil =>
    intro p fuel hc hfuel _
    obtain ⟨n, rfl⟩ : ∃ n, fuel = n + 1 := ⟨fuel - 1, by simp at hfuel; omega⟩
    have hp : p = ROTARY_ENCODER_NULL := hc
    simp only [Chain.removeLoop, hp, if_true]
  | cons y ys ih =>
    intro p fuel hc hfuel hmem
    obtain ⟨n, rfl⟩ : ∃ n, fuel = n + 1 := ⟨fuel - 1, by simp at hfuel; omega⟩
    obtain ⟨hp, hy, hrest⟩ := hc
    subst hp
    have hne : r ≠ (heap p).Previous := by
      intro h
      cases ys with
      | nil => exact hr (h.trans hrest)
      | cons z zs =>
        obtain ⟨hq, _, _⟩ := hrest
        exact hmem (by rw [h, hq]; simp)
    have hlen : ys.length < n := by
      simp only [List.length_cons] at hfuel
      omega
    simp only [Chain.removeLoop, if_neg hy, if_neg hne]
    exact ih hrest hlen (fun h => hmem (List.mem_cons_of_mem _ h))

/-- A linked record other than the head has a predecessor in the chain. -/
theorem List.split_before_mem {p r : Ptr} {xs : List Ptr} (h : r ∈ xs) :
    ∃ a x b, p :: xs = a ++ x :: r :: b := by
  obtain ⟨s, t, rfl⟩ := List.append_of_mem h
  rcases List.eq_nil_or_concat (p :: s) with hnil | ⟨a, x, hax⟩
  · cases hnil
  · refine ⟨a, x, t, ?_⟩
    rw [← List.cons_append, hax]
    simp

/-- Removal of the head: the call returns 1, the head pointer is unchanged
and the chain from it is the removed record alone. -/
theorem Chain.remove_head {reg : Registry} {r : Ptr} {xs : List Ptr} (fuel : Nat)
    (hc : ChainFrom reg.heap reg.lastEncoder (r :: xs)) :
    Chain.RotaryEncoder_remove fuel reg r =
        .ok (⟨Chain.unlink reg.heap r r, reg.lastEncoder⟩, 1) ∧
      ChainFrom (Chain.unlink reg.heap r r) reg.lastEncoder [r] := by
  obtain ⟨hp, hr, _⟩ := hc
  constructor
  · unfold Chain.RotaryEncoder_remove
    simp only [hp, if_true, if_neg hr]
  · have hprev : (Chain.unlink reg.heap r r r).Previous = ROTARY_ENCODER_NULL := by
      unfold Chain.unlink
      dsimp only
      rw [Function.update_same]
    exact ⟨hp, hr, hprev⟩

/-- Removal of a linked record that is not the head: the call returns 1 and
the chain from the head is the old chain without the record, in the old order. -/
theorem Chain.remove_inner {reg : Registry} {r : Ptr} {l : List Ptr} {fuel : Nat}
    (hc : ChainFrom reg.heap reg.lastEncoder l) (hfuel : l.length < fuel)
    (hr : r ∈ l) (hhead : r ≠ reg.lastEncoder) :
    ∃ reg', Chain.RotaryEncoder_remove fuel reg r = .ok (reg', 1) ∧
      reg'.lastEncoder = reg.lastEncoder ∧
      ChainFrom reg'.heap reg'.lastEncoder (l.erase r) := by
  cases l with
  | nil => cases hr
  | cons p xs =>
    have hnd := ChainFrom.nodup hc
    have hp : reg.lastEncoder = p := hc.1
    have hrxs : r ∈ xs := by
      rcases List.mem_cons.1 hr with h | h
      · exact absurd (h.trans hp.symm) hhead
      · exact h
    obtain ⟨a, x, b, hsplit⟩ := List.split_before_mem (p := p) hrxs
    rw [hsplit] at hc hfuel hnd
    have hra : r ∉ a := by
      intro h
      have := (List.nodup_append.1 hnd).2.2 h (show r ∈ x :: r :: b by simp)
      exact this
    have hrx : r ≠ x := by
      intro h
      have h2 := (List.nodup_append.1 hnd).2.1
      exact (List.nodup_cons.1 h2).1 (h ▸ List.mem_cons_self _ _)
    refine ⟨⟨Chain.unlink reg.heap x r, reg.lastEncoder⟩, ?_, rfl, ?_⟩
    · unfold Chain.RotaryEncoder_remove
      simp only [if_neg hhead, Chain.removeLoop_found a hc hfuel]
    · rw [hsplit]
      have herase : (a ++ x :: r :: b).erase r = a ++ x :: b := by
        rw [List.erase_append_right _ hra, List.erase_cons_tail (by simpa using hrx.symm),
          List.erase_cons_head]
      rw [herase]
      exact Chain.unlink_chain a hc

/-- Removal of a non-null record that is not linked: the call returns 0 and
the registry is as before. -/
theorem Chain.remove_absent {reg : Registry} {r : Ptr} {l : List Ptr} {fuel : Nat}
    (hc : ChainFrom reg.heap reg.lastEncoder l) (hfuel : l.length < fuel)
    (hr : r ≠ ROTARY_ENCODER_NULL) (hmem : r ∉ l) :
    Chain.RotaryEncoder_remove fuel reg r = .ok (reg, 0) := by
  have hhead : r ≠ reg.lastEncoder := by
    intro h
    cases l with
    | nil => exact hr (h.trans hc)
    | cons y ys => exact hmem (by rw [h, hc.1]; simp)
  unfold Chain.RotaryEncoder_remove
  simp only [if_neg hhead, Chain.removeLoop_absent hr l hc hfuel hmem]

theorem Chain.removeLoop_fuel_mono (r : Ptr) (heap : Heap) :
    ∀ (n : Nat) (p : Ptr) (out : Heap × Nat), Chain.removeLoop r n heap p = .ok out →
      ∀ m, n ≤ m → Chain.removeLoop r m heap p = .ok out := by
  intro n
  induction n with
  | zero =>
    intro p out h
    simp [Chain.removeLoop] at h
  | succ n ih =>
    intro p out h m hm
    obtain ⟨k, rfl⟩ : ∃ k, m = k + 1 := ⟨m - 1, by omega⟩
    simp only [Chain.removeLoop] at h ⊢
    by_cases hp : p = ROTARY_ENCODER_NULL
    · simpa only [hp, if_true] using h
    · by_cases hq : r = (heap p).Previous
      · simpa only [if_neg hp, if_pos hq] using h
      · simp only [if_neg hp, if_neg hq] at h ⊢
        exact ih _ _ h k (by omega)

theorem Chain.remove_fuel_mono {reg : Registry} {r : Ptr} {n m : Nat} {out : Registry × Nat}
    (h : Chain.RotaryEncoder_remove n reg r = .ok out) (hm : n ≤ m) :
    Chain.RotaryEncoder_remove m reg r = .ok out := by
  unfold Chain.RotaryEncoder_remove at h ⊢
  by_cases hhead : r = reg.lastEncoder
  · simpa only [if_pos hhead] using h
  · simp only [if_neg hhead] at h ⊢
    cases hloop : Chain.removeLoop r n reg.heap reg.lastEncoder with
    | error f => rw [hloop] at h; cases h
    | ok res =>
      rw [hloop] at h
      rw [Chain.removeLoop_fuel_mono r reg.heap n _ res hloop m hm]
      exact h

/-- Whatever `RotaryEncoder_remove` returns on a non-null record, a
well-formed chain stays a well-formed chain. -/
theorem Chain.remove_keeps_chain {reg reg' : Registry} {r : Ptr} {l : List Ptr}
    {fuel ret : Nat} (hc : ChainFrom reg.heap reg.lastEncoder l)
    (hr : r ≠ ROTARY_ENCODER_NULL)
    (hrem : Chain.RotaryEncoder_remove fuel reg r = .ok (reg', ret)) :
    ∃ l', ChainFrom reg'.heap reg'.lastEncoder l' := by
  have hbig := Chain.remove_fuel_mono hrem (Nat.le_max_left fuel (l.length + 1))
  have hfuel : l.length < max fuel (l.length + 1) :=
    lt_of_lt_of_le (Nat.lt_succ_self _) (Nat.le_max_right _ _)
  by_cases hmem : r ∈ l
  · by_cases hhead : r = reg.lastEncoder
    · cases l with
      | nil => cases hmem
      | cons p xs =>
        have hp : reg.lastEncoder = p := hc.1
        have hrp : r = p := hhead.trans hp
        subst hrp
        obtain ⟨heq, hchain⟩ := Chain.remove_head fuel hc
        rw [heq] at hrem
        have := (Prod.mk.inj (Except.ok.inj hrem)).1
        subst this
        exact ⟨[r], hchain⟩
    · obtain ⟨reg₂, heq, _, hchain⟩ := Chain.remove_inner hc hfuel hmem hhead
      rw [heq] at hbig
      have := (Prod.mk.inj (Except.ok.inj hbig)).1
      subst this
      exact ⟨_, hchain⟩
  · rw [Chain.remove_absent hc hfuel hr hmem] at hbig
    have := (Prod.mk.inj (Except.ok.inj hbig)).1
    subst this
    exact ⟨l, hc⟩

/-- Adding a non-null record that is not on the chain puts it in front of
the chain. -/
theorem Chain.add_chain {drv : RotaryEncoder_Driver} {reg reg' : Registry} {r config : Ptr}
    {ret : Nat} {evs : List Event} {l : List Ptr} (hr : r ≠ ROTARY_ENCODER_NULL)
    (hc : ChainFrom reg.heap reg.lastEncoder l) (hnl : r ∉ l)
    (hadd : Chain.RotaryEncoder_add drv reg r config = .ok (reg', ret, evs)) :
    ChainFrom reg'.heap reg'.lastEncoder (r :: l) := by
  unfold Chain.RotaryEncoder_add at hadd
  rw [if_neg hr] at hadd
  by_cases hinit : drv.initPin = true
  · simp only [hinit, Bool.not_true, Bool.false_eq_true, if_false] at hadd
    have := (Prod.mk.inj (Except.ok.inj hadd)).1
    subst this
    refine ⟨rfl, hr, ?_⟩
    dsimp only
    rw [Function.update_same]
    refine ChainFrom.congr (fun a ha => ?_) hc
    rw [Function.update_noteq (fun h => hnl (by rw [← h]; exact ha))]
  · simp only [hinit, Bool.not_false, if_true] at hadd
    cases hadd

theorem Chain.findLoop_returns (config : Ptr) (heap : Heap) (l : List Ptr) :
    ∀ (p : Ptr) (fuel : Nat), ChainFrom heap p l → l.length < fuel →
      ∃ q, Chain.findLoop config heap fuel p = .ok q := by
  induction l with
  | nil =>
    intro p fuel hc hfuel
    obtain ⟨n, rfl⟩ : ∃ n, fuel = n + 1 := ⟨fuel - 1, by simp at hfuel; omega⟩
    have hp : p = ROTARY_ENCODER_NULL := hc
    exact ⟨ROTARY_ENCODER_NULL, by simp only [Chain.findLoop, hp, if_true]⟩
  | cons x xs ih =>
    intro p fuel hc hfuel
    obtain ⟨n, rfl⟩ : ∃ n, fuel = n + 1 := ⟨fuel - 1, by simp at hfuel; omega⟩
    obtain ⟨hp, hx, hrest⟩ := hc
    subst hp
    by_cases hcfg : config = (heap p).Config
    · exact ⟨p, by simp only [Chain.findLoop, if_neg hx, if_pos hcfg]⟩
    · have hlen : xs.length < n := by simp only [List.length_cons] at hfuel; omega
      obtain ⟨q, hq⟩ := ih _ n hrest hlen
      exact ⟨q, by simp only [Chain.findLoop, if_neg hx, if_neg hcfg, hq]⟩

/-- Over a well-formed chain the three traversals return once the fuel
exceeds the length of the chain. -/
theorem Chain.traversals_return {reg : Registry} {l : List Ptr} {fuel : Nat}
    (hc : ChainFrom reg.heap reg.lastEncoder l) (hfuel : l.length < fuel) :
    (∀ enableFlag drv, ∃ out, Chain.RotaryEncoder_handle enableFlag drv fuel reg = .ok out) ∧
    (∀ config, ∃ q, Chain.RotaryEncoder_find fuel reg config = .ok q) ∧
    (∀ r, r ≠ ROTARY_ENCODER_NULL → ∃ out, Chain.RotaryEncoder_remove fuel reg r = .ok out) := by
  refine ⟨fun enableFlag drv => ⟨_, Chain.handle_spec enableFlag drv reg l fuel hc hfuel⟩,
    fun config => Chain.findLoop_returns config reg.heap l _ fuel hc hfuel, fun r hr => ?_⟩
  by_cases hmem : r ∈ l
  · by_cases hhead : r = reg.lastEncoder
    · cases l with
      | nil => cases hmem
      | cons p xs =>
        have hrp : r = p := hhead.trans hc.1
        subst hrp
        exact ⟨_, (Chain.remove_head fuel hc).1⟩
    · obtain ⟨reg₂, heq, _⟩ := Chain.remove_inner hc hfuel hmem hhead
      exact ⟨_, heq⟩
  · exact ⟨_, Chain.remove_absent hc hfuel hr hmem⟩

/-- A non-null record whose `Previous` is the record itself heads no chain. -/
theorem ChainFrom.not_of_self_loop {h : Heap} {p : Ptr} (hp : p ≠ ROTARY_ENCODER_NULL)
    (hself : (h p).Previous = p) : ¬ ∃ l, ChainFrom h p l := by
  rintro ⟨l, hc⟩
  cases l with
  | nil => exact hp hc
  | cons x xs =>
    obtain ⟨hpx, hx, hrest⟩ := hc
    subst hpx
    have hfull : ChainFrom h p (p :: xs) := ⟨rfl, hx, hrest⟩
    rw [hself] at hrest
    have hlen := congrArg List.length (ChainFrom.unique hrest hfull)
    simp at hlen

/-- From a non-null record whose `Previous` is the record itself the loop of
the tick never reaches null: it uses up any amount of fuel. -/
theorem Chain.handleLoop_self_loop (enableFlag : Bool) (drv : RotaryEncoder_Driver)
    {p : Ptr} (hp : p ≠ ROTARY_ENCODER_NULL) :
    ∀ (fuel : Nat) (heap : Heap), (heap p).Previous = p →
      Chain.handleLoop enableFlag drv fuel heap p = .error Fault.outOfFuel := by
  intro fuel
  induction fuel with
  | zero => intro heap _; rfl
  | succ n ih =>
    intro heap hself
    have hnext : (Function.update heap p (handleRecord enableFlag drv p (heap p)).1 p).Previous
        = p := by
      rw [Function.update_same, handleRecord_previous, hself]
    simp only [Chain.handleLoop, if_neg hp, hnext]
    rw [ih _ hnext]

theorem Linked.not_of_chain {reg : Registry} {r : Ptr} {l : List Ptr}
    (hc : ChainFrom reg.heap reg.lastEncoder l) (hr : r ∉ l) : ¬ Linked reg r := by
  rintro ⟨l', hc', hr'⟩
  rw [ChainFrom.unique hc' hc] at hr'
  exact hr hr'

/-! ## C5: the chain stays simple and acyclic -/

/-- C5, counterexample: `add(1, 7)` twice in a row, starting from the empty
registry.  Both calls return 1; afterwards record 1 is the head and its
`Previous` is record 1 itself, so no chain to null leaves the head and a
tick runs out of any amount of fuel. -/
theorem add_twice_makes_self_loop :
    (∃ evs, Chain.RotaryEncoder_add (pinsDriver 1 1) (Registry.init zeroHeap) 1 7
        = .ok (oneAdded, 1, evs)) ∧
    (∃ evs, Chain.RotaryEncoder_add (pinsDriver 1 1) oneAdded 1 7
        = .ok (addedAgain, 1, evs)) ∧
    addedAgain.lastEncoder = 1 ∧ (addedAgain.heap 1).Previous = 1 ∧
    (¬ ∃ l, ChainFrom addedAgain.heap addedAgain.lastEncoder l) ∧
    ∀ fuel, Chain.RotaryEncoder_handle false (pinsDriver 1 1) fuel addedAgain
      = .error Fault.outOfFuel := by
  have hne : (1 : Ptr) ≠ ROTARY_ENCODER_NULL := by decide
  have hself : (addedAgain.heap 1).Previous = 1 := rfl
  refine ⟨⟨_, rfl⟩, ⟨_, rfl⟩, rfl, hself, ChainFrom.not_of_self_loop hne hself, fun fuel => ?_⟩
  have hloop := Chain.handleLoop_self_loop false (pinsDriver 1 1) hne fuel addedAgain.heap hself
  unfold Chain.RotaryEncoder_handle
  have hhead : addedAgain.lastEncoder = 1 := rfl
  rw [hhead, hloop]

/-- C5, amended: in every registry state produced from the empty registry by
calls of add and remove on non-null records, each add being made on a record
that is not linked at the time of the call, the records reachable from the
head by `Previous` links form a chain that ends at null and in which no
record appears twice; and the loops of handle, find and remove return once
the fuel exceeds the length of that chain. -/
theorem reachable_registry_is_simple_chain (drv : RotaryEncoder_Driver) (heap₀ : Heap)
    (reg : Registry) (h : Chain.Reachable drv heap₀ reg) :
    ∃ l, ChainFrom reg.heap reg.lastEncoder l ∧ l.Nodup ∧
      ∀ fuel, l.length < fuel →
        (∀ enableFlag drv', ∃ out,
          Chain.RotaryEncoder_handle enableFlag drv' fuel reg = .ok out) ∧
        (∀ config, ∃ q, Chain.RotaryEncoder_find fuel reg config = .ok q) ∧
        (∀ r, r ≠ ROTARY_ENCODER_NULL →
          ∃ out, Chain.RotaryEncoder_remove fuel reg r = .ok out) := by
  have hchain : ∃ l, ChainFrom reg.heap reg.lastEncoder l := by
    induction h with
    | init => exact ⟨[], rfl⟩
    | add _ hne hnl hadd ih =>
      obtain ⟨l, hc⟩ := ih
      exact ⟨_, Chain.add_chain hne hc (fun hmem => hnl ⟨l, hc, hmem⟩) hadd⟩
    | remove _ hne hrem ih =>
      obtain ⟨l, hc⟩ := ih
      exact Chain.remove_keeps_chain hc hne hrem
  obtain ⟨l, hc⟩ := hchain
  exact ⟨l, hc, ChainFrom.nodup hc, fun fuel hfuel => Chain.traversals_return hc hfuel⟩

/-- C5, amended, at the registry reached by `add(1, 7)` and `add(2, 8)`. -/
theorem reachable_registry_is_simple_chain_witness :
    Chain.Reachable (pinsDriver 1 1) zeroHeap twoAdded ∧
    ∃ l, ChainFrom twoAdded.heap twoAdded.lastEncoder l ∧ l.Nodup ∧
      ∀ fuel, l.length < fuel →
        (∀ enableFlag drv', ∃ out,
          Chain.RotaryEncoder_handle enableFlag drv' fuel twoAdded = .ok out) ∧
        (∀ config, ∃ q, Chain.RotaryEncoder_find fuel twoAdded config = .ok q) ∧
        (∀ r, r ≠ ROTARY_ENCODER_NULL →
          ∃ out, Chain.RotaryEncoder_remove fuel twoAdded r = .ok out) :=
  have hreach : Chain.Reachable (pinsDriver 1 1) zeroHeap twoAdded :=
    Chain.Reachable.add
      (Chain.Reachable.add Chain.Reachable.init (by decide)
        (Linked.not_of_chain (l := []) (by decide) (by decide))
        (show Chain.RotaryEncoder_add (pinsDriver 1 1) (Registry.init zeroHeap) 1 7
          = .ok (oneAdded, 1, _) from rfl))
      (by decide)
      (Linked.not_of_chain (l := [1]) (by decide) (by decide))
      (show Chain.RotaryEncoder_add (pinsDriver 1 1) oneAdded 2 8 = .ok (twoAdded, 1, _)
        from rfl)
  ⟨hreach, reachable_registry_is_simple_chain (pinsDriver 1 1) zeroHeap twoAdded hreach⟩

/-! ## C6: `find` after `add` -/

/-- What `RotaryEncoder_add` returns in chain mode for a non-null record when
the driver supplies `initPin`. -/
theorem Chain.add_spec (drv : RotaryEncoder_Driver) (reg : Registry) (r p : Ptr)
    (hr : r ≠ ROTARY_ENCODER_NULL) (hinit : drv.initPin = true) :
    Chain.RotaryEncoder_add drv reg r p =
      .ok (⟨Function.update reg.heap r
              { reg.heap r with
                  Config := p,
                  State := (((drv.readPin ⟨p, false⟩).val <<< 1) |||
                    (drv.readPin ⟨p, false⟩).val) &&& 3,
                  Previous := reg.lastEncoder, Configured := true, Enabled := true }, r⟩,
           1,
           [Event.initPin ⟨p, false⟩, Event.readPin ⟨p, false⟩, Event.readPin ⟨p, false⟩]) := by
  unfold Chain.RotaryEncoder_add
  simp only [if_neg hr, hinit, Bool.not_true, Bool.false_eq_true, if_false]
  rfl

theorem Fixed.findLoop_first_match (config : Ptr) (heap : Heap) :
    ∀ (len : Nat) (p : Ptr) (i : Nat), i < len → (heap (p + i)).Config = config →
      (∀ j, j < i → (heap (p + j)).Config ≠ config) →
      Fixed.findLoop config heap len p = p + i := by
  intro len
  induction len with
  | zero => intro p i hi; cases hi
  | succ n ih =>
    intro p i hi hcfg hbefore
    cases i with
    | zero =>
      have h0 : config = (heap p).Config := hcfg.symm
      simp only [Fixed.findLoop, if_pos h0]
      rfl
    | succ k =>
      have h0 : ¬ config = (heap p).Config := fun h => hbefore 0 (Nat.succ_pos k) h.symm
      have hshift : ∀ (j : Nat), p + 1 + j = p + (j + 1) := by
        intro j
        rw [Nat.add_assoc, Nat.add_comm 1 j]
      simp only [Fixed.findLoop, if_neg h0]
      rw [ih (p + 1) k (Nat.lt_of_succ_lt_succ hi) (by rw [hshift]; exact hcfg)
        (fun j hj => by rw [hshift]; exact hbefore (j + 1) (Nat.succ_lt_succ hj))]
      exact hshift k

/-- Array-mode companion of C6: after `add` on slot `i` of the array with a
pin pair that no lower slot stores, `find` returns that slot. -/
theorem Fixed.find_after_add_slot (drv : RotaryEncoder_Driver) (MAX_NUM : Nat)
    (encoders : Ptr) (heap : Heap) (i : Nat) (p : Ptr)
    (hr : encoders + i ≠ ROTARY_ENCODER_NULL) (hinit : drv.initPin = true)
    (hi : i < MAX_NUM % 256) (hfresh : ∀ j, j < i → (heap (encoders + j)).Config ≠ p) :
    ∃ heap' evs, Fixed.RotaryEncoder_add drv heap (encoders + i) p = .ok (heap', 1, evs) ∧
      Fixed.RotaryEncoder_find MAX_NUM encoders heap' p = encoders + i := by
  have hadd : Fixed.RotaryEncoder_add drv heap (encoders + i) p =
      .ok (Function.update heap (encoders + i)
            { heap (encoders + i) with
                Config := p,
                State := (((drv.readPin ⟨p, false⟩).val <<< 1) |||
                  (drv.readPin ⟨p, false⟩).val) &&& 3,
                Configured := true, Enabled := true },
           1,
           [Event.initPin ⟨p, false⟩, Event.readPin ⟨p, false⟩, Event.readPin ⟨p, false⟩]) := by
    unfold Fixed.RotaryEncoder_add
    simp only [if_neg hr, hinit, Bool.not_true, Bool.false_eq_true, if_false]
    rfl
  refine ⟨_, _, hadd, ?_⟩
  unfold Fixed.RotaryEncoder_find
  refine Fixed.findLoop_first_match p _ _ encoders i hi ?_ (fun j hj => ?_)
  · rw [Function.update_same]
  · have hne : encoders + j ≠ encoders + i := by
      intro h
      exact absurd (Nat.add_left_cancel h) (Nat.ne_of_lt hj)
    rw [Function.update_noteq hne]
    exact hfresh j hj

/-! ## C7: removing a record that is not in the registry -/

theorem Fixed.removeLoop_unconfigured (r : Ptr) (heap : Heap) :
    ∀ (len : Nat) (p : Ptr), (∀ i, i < len → r = p + i → (heap r).Configured = false) →
      Fixed.removeLoop r len heap p = (heap, 0) := by
  intro len
  induction len with
  | zero => intro p _; rfl
  | succ n ih =>
    intro p h
    have h0 : ¬ (r = p ∧ (heap p).Configured = true) := by
      rintro ⟨hrp, hcfg⟩
      have := h 0 (Nat.succ_pos n) (by rw [hrp]; rfl)
      rw [hrp, hcfg] at this
      cases this
    simp only [Fixed.removeLoop, if_neg h0]
    refine ih (p + 1) (fun i hi hri => h (i + 1) (Nat.succ_lt_succ hi) ?_)
    rw [hri, Nat.add_assoc, Nat.add_comm 1 i]

/-- C7: removing a non-null record that is not in the registry returns 0 and
changes nothing.  Chain mode: `r` is not on the chain from the head; the
whole registry (head and record memory) is returned as it was.  Array mode:
`r` is not a configured slot of the array; record memory is returned as it
was. -/
theorem remove_of_absent_record_is_noop :
    (∀ (reg : Registry) (l : List Ptr) (fuel : Nat) (r : Ptr),
      ChainFrom reg.heap reg.lastEncoder l → l.length < fuel →
      r ≠ ROTARY_ENCODER_NULL → r ∉ l →
      Chain.RotaryEncoder_remove fuel reg r = .ok (reg, 0)) ∧
    (∀ (MAX_NUM : Nat) (encoders : Ptr) (heap : Heap) (r : Ptr),
      r ≠ ROTARY_ENCODER_NULL →
      (∀ i, i < MAX_NUM → r = encoders + i → (heap r).Configured = false) →
      Fixed.RotaryEncoder_remove MAX_NUM encoders heap r = (heap, 0)) := by
  constructor
  · intro reg l fuel r hc hfuel hr hmem
    exact Chain.remove_absent hc hfuel hr hmem
  · intro MAX_NUM encoders heap r _ h
    unfold Fixed.RotaryEncoder_remove
    exact Fixed.removeLoop_unconfigured r heap _ _
      (fun i hi => h i (lt_of_lt_of_le hi (Nat.mod_le _ _)))

/-- C7 at the two-record chain (record 3 was never added) and at a
two-slot array at address 1 whose second slot is free. -/
theorem remove_of_absent_record_is_noop_witness :
    (ChainFrom twoRegistry.heap twoRegistry.lastEncoder [1, 2] ∧
      (3 : Ptr) ≠ ROTARY_ENCODER_NULL ∧ (3 : Ptr) ∉ [1, 2] ∧
      Chain.RotaryEncoder_remove 3 twoRegistry 3 = .ok (twoRegistry, 0)) ∧
    ((∀ i, i < 2 → (2 : Ptr) = 1 + i → (sampleRegistry.heap 2).Configured = false) ∧
      Fixed.RotaryEncoder_remove 2 1 sampleRegistry.heap 2 = (sampleRegistry.heap, 0)) :=
  ⟨⟨by decide, by decide, by decide,
     remove_of_absent_record_is_noop.1 twoRegistry [1, 2] 3 3
       (by decide) (by decide) (by decide) (by decide)⟩,
   ⟨fun _ _ _ => rfl,
     remove_of_absent_record_is_noop.2 2 1 sampleRegistry.heap 2 (by decide)
       (fun _ _ _ => rfl)⟩⟩

/-! ## C8: the sign of the index step for each direction -/

theorem decode_index (drv : RotaryEncoder_Driver) (r : Ptr) (e : RotaryEncoder) :
    (decode drv r e).1.Index =
      wrapIntoRange e.Range
        (toInt16 (e.Index + (if readDirection drv e ≠ 0 then -1 else 1))) := by
  rw [decode_fst, ← stepIndex_index]

theorem decode_index_follows_direction (drv : RotaryEncoder_Driver) (r : Ptr)
    (e : RotaryEncoder) :
    IndexFollowsDirection e (readDirection drv e) (decode drv r e).1 := by
  unfold IndexFollowsDirection
  rw [decode_index]
  unfold readDirection
  by_cases h : drv.readPin ⟨e.Config, false⟩ = drv.readPin ⟨e.Config, true⟩
  · right
    rw [if_pos h]
    exact ⟨rfl, rfl⟩
  · left
    rw [if_neg h]
    exact ⟨rfl, rfl⟩

/-- C8, counterexample: with Range = [0, 3] and Index = 1, a tick with
Data = 1 and Clock = 0 passes ClockWise to the callback, stores ClockWise
in LastDirection and moves the index to 2 = 1 + 1, where the claim asks for
an adjustment by -1. -/
theorem handle_clockwise_steps_index_up :
    ∃ reg' seen,
      Chain.RotaryEncoder_handle true (pinsDriver 1 0) 2 (rangeRegistry 0 3 1) =
        .ok (reg', [Event.readPin ⟨7, false⟩, Event.readPin ⟨7, true⟩,
                    Event.onChange 5 1 RotaryEncoder_Direction_ClockWise seen]) ∧
      (reg'.heap 1).LastDirection = RotaryEncoder_Direction_ClockWise ∧
      ((rangeRegistry 0 3 1).heap 1).Index = 1 ∧
      (reg'.heap 1).Index = 1 + 1 ∧
      (reg'.heap 1).Index ≠
        wrapIntoRange ((rangeRegistry 0 3 1).heap 1).Range (toInt16 (1 - 1)) :=
  ⟨_, _, rfl, rfl, rfl, by decide, by decide⟩

/-- C8, amended: in one tick, in chain mode and in array mode, the index of
an eligible record is adjusted by +1 when the direction computed in that
tick (the one stored in LastDirection and passed to the callback) is
ClockWise, and by -1 when it is AntiClockWise, before wrapping is applied. -/
theorem handle_index_step_of_direction (enableFlag : Bool) (drv : RotaryEncoder_Driver) :
    (∀ (reg : Registry) (l : List Ptr) (fuel : Nat) (r : Ptr),
      ChainFrom reg.heap reg.lastEncoder l → l.length < fuel → r ∈ l →
      Chain.Eligible enableFlag (reg.heap r) →
      ∃ reg' evs d, Chain.RotaryEncoder_handle enableFlag drv fuel reg = .ok (reg', evs) ∧
        DirectionReported (reg.heap r) r d (reg'.heap r) evs ∧
        IndexFollowsDirection (reg.heap r) d (reg'.heap r)) ∧
    (∀ (MAX_NUM : Nat) (encoders : Ptr) (heap : Heap) (i : Nat), i < MAX_NUM % 256 →
      Fixed.Eligible enableFlag (heap (encoders + i)) →
      ∃ d,
        DirectionReported (heap (encoders + i)) (encoders + i) d
          ((Fixed.RotaryEncoder_handle enableFlag drv MAX_NUM encoders heap).1 (encoders + i))
          (Fixed.RotaryEncoder_handle enableFlag drv MAX_NUM encoders heap).2 ∧
        IndexFollowsDirection (heap (encoders + i)) d
          ((Fixed.RotaryEncoder_handle enableFlag drv MAX_NUM encoders heap).1
            (encoders + i))) := by
  constructor
  · intro reg l fuel r hc hfuel hr hel
    obtain ⟨reg', evs, hrun, hrec, hsub, hback⟩ :=
      Chain.handle_at enableFlag drv reg l fuel r hc hfuel hr hel
    refine ⟨reg', evs, readDirection drv (reg.heap r), hrun,
      (decode_direction drv r (reg.heap r)).of_tick hrec hsub hback, ?_⟩
    rw [hrec]
    exact decode_index_follows_direction drv r (reg.heap r)
  · intro MAX_NUM encoders heap i hi hel
    obtain ⟨hrec, hsub, hback⟩ := Fixed.handle_slot enableFlag drv MAX_NUM encoders heap i hi hel
    refine ⟨readDirection drv (heap (encoders + i)),
      (decode_direction drv _ _).of_tick hrec hsub hback, ?_⟩
    rw [hrec]
    exact decode_index_follows_direction drv _ _

/-- C8, amended, at the registry of the counterexample and at a one-slot
array holding the same record. -/
theorem handle_index_step_of_direction_witness :
    (ChainFrom (rangeRegistry 0 3 1).heap (rangeRegistry 0 3 1).lastEncoder [1] ∧
      Chain.Eligible true ((rangeRegistry 0 3 1).heap 1) ∧
      ∃ reg' evs d,
        Chain.RotaryEncoder_handle true (pinsDriver 1 0) 2 (rangeRegistry 0 3 1)
          = .ok (reg', evs) ∧
        DirectionReported ((rangeRegistry 0 3 1).heap 1) 1 d (reg'.heap 1) evs ∧
        IndexFollowsDirection ((rangeRegistry 0 3 1).heap 1) d (reg'.heap 1)) ∧
    (Fixed.Eligible true ((rangeRegistry 0 3 1).heap (1 + 0)) ∧
      ∃ d,
        DirectionReported ((rangeRegistry 0 3 1).heap (1 + 0)) (1 + 0) d
          ((Fixed.RotaryEncoder_handle true (pinsDriver 1 0) 1 1 (rangeRegistry 0 3 1).heap).1
            (1 + 0))
          (Fixed.RotaryEncoder_handle true (pinsDriver 1 0) 1 1 (rangeRegistry 0 3 1).heap).2 ∧
        IndexFollowsDirection ((rangeRegistry 0 3 1).heap (1 + 0)) d
          ((Fixed.RotaryEncoder_handle true (pinsDriver 1 0) 1 1 (rangeRegistry 0 3 1).heap).1
            (1 + 0))) :=
  ⟨⟨by decide, fun _ => rfl,
     (handle_index_step_of_direction true (pinsDriver 1 0)).1 (rangeRegistry 0 3 1) [1] 2 1
       (by decide) (by decide) (by decide) (fun _ => rfl)⟩,
   ⟨⟨rfl, fun _ => rfl⟩,
     (handle_index_step_of_direction true (pinsDriver 1 0)).2 1 1 (rangeRegistry 0 3 1).heap 0
       (by decide) ⟨rfl, fun _ => rfl⟩⟩⟩

/-! ## C9: from pin values to the index -/

theorem decode_index_follows_pins (drv : RotaryEncoder_Driver) (r : Ptr) (e : RotaryEncoder)
    (ht : WellTyped e) : IndexFollowsPins drv e (decode drv r e).1 := by
  obtain ⟨_, ⟨hminlo, _⟩, ⟨_, hmaxhi⟩⟩ := ht
  have up : ∀ (lo hi x : Int), -32768 ≤ lo → hi ≤ 32767 → lo ≤ x → x < hi →
      wrapIntoRange ⟨lo, hi⟩ (toInt16 (x + 1)) = x + 1 := by
    intro lo hi x h1 h2 h3 h4
    rw [toInt16_of_fits (x + 1) (by omega) (by omega)]
    unfold wrapIntoRange
    simp only
    split_ifs <;> omega
  have down : ∀ (lo hi x : Int), -32768 ≤ lo → hi ≤ 32767 → lo < x → x ≤ hi →
      wrapIntoRange ⟨lo, hi⟩ (toInt16 (x + -1)) = x - 1 := by
    intro lo hi x h1 h2 h3 h4
    rw [toInt16_of_fits (x + -1) (by omega) (by omega)]
    unfold wrapIntoRange
    simp only
    split_ifs <;> omega
  unfold IndexFollowsPins
  rw [decode_index]
  unfold readDirection
  constructor
  · intro hne hlo hhi
    simp only [hne, if_false, ne_eq, not_true_eq_false]
    exact up e.Range.Min e.Range.Max e.Index hminlo hmaxhi hlo hhi
  · intro heq hlo hhi
    simp only [heq, if_true, ne_eq, one_ne_zero, not_false_eq_true]
    exact down e.Range.Min e.Range.Max e.Index hminlo hmaxhi hlo hhi

/-- C9: for every eligible record whose index fields hold 16-bit values, in
chain mode and in array mode, a tick in which readPin returns different
values for Data and Clock increases an Index in [Min, Max) by exactly 1, and
a tick in which the two reads are equal decreases an Index in (Min, Max] by
exactly 1. -/
theorem handle_pins_to_index (enableFlag : Bool) (drv : RotaryEncoder_Driver) :
    (∀ (reg : Registry) (l : List Ptr) (fuel : Nat) (r : Ptr),
      ChainFrom reg.heap reg.lastEncoder l → l.length < fuel → r ∈ l →
      Chain.Eligible enableFlag (reg.heap r) → WellTyped (reg.heap r) →
      ∃ reg' evs, Chain.RotaryEncoder_handle enableFlag drv fuel reg = .ok (reg', evs) ∧
        IndexFollowsPins drv (reg.heap r) (reg'.heap r)) ∧
    (∀ (MAX_NUM : Nat) (encoders : Ptr) (heap : Heap) (i : Nat), i < MAX_NUM % 256 →
      Fixed.Eligible enableFlag (heap (encoders + i)) → WellTyped (heap (encoders + i)) →
      IndexFollowsPins drv (heap (encoders + i))
        ((Fixed.RotaryEncoder_handle enableFlag drv MAX_NUM encoders heap).1
          (encoders + i))) := by
  constructor
  · intro reg l fuel r hc hfuel hr hel ht
    obtain ⟨reg', evs, hrun, hrec, _, _⟩ :=
      Chain.handle_at enableFlag drv reg l fuel r hc hfuel hr hel
    refine ⟨reg', evs, hrun, ?_⟩
    rw [hrec]
    exact decode_index_follows_pins drv r (reg.heap r) ht
  · intro MAX_NUM encoders heap i hi hel ht
    obtain ⟨hrec, _, _⟩ := Fixed.handle_slot enableFlag drv MAX_NUM encoders heap i hi hel
    rw [hrec]
    exact decode_index_follows_pins drv _ _ ht

/-- C9 at the spec scenario: Range = [0, 3], Index = 0, Data = 1, Clock = 0
gives Index = 1, in chain mode and in a one-slot array. -/
theorem handle_pins_to_index_witness :
    (ChainFrom sampleRegistry.heap sampleRegistry.lastEncoder [1] ∧
      Chain.Eligible true (sampleRegistry.heap 1) ∧ WellTyped (sampleRegistry.heap 1) ∧
      (∃ reg' evs, Chain.RotaryEncoder_handle true (pinsDriver 1 0) 2 sampleRegistry
          = .ok (reg', evs) ∧
        IndexFollowsPins (pinsDriver 1 0) (sampleRegistry.heap 1) (reg'.heap 1)) ∧
      ∃ reg' evs, Chain.RotaryEncoder_handle true (pinsDriver 1 0) 2 sampleRegistry
          = .ok (reg', evs) ∧ (reg'.heap 1).Index = 1) ∧
    (Fixed.Eligible true (sampleRegistry.heap (1 + 0)) ∧
      WellTyped (sampleRegistry.heap (1 + 0)) ∧
      IndexFollowsPins (pinsDriver 1 0) (sampleRegistry.heap (1 + 0))
        ((Fixed.RotaryEncoder_handle true (pinsDriver 1 0) 1 1 sampleRegistry.heap).1
          (1 + 0))) :=
  ⟨⟨by decide, fun _ => rfl, by decide,
     (handle_pins_to_index true (pinsDriver 1 0)).1 sampleRegistry [1] 2 1
       (by decide) (by decide) (by decide) (fun _ => rfl) (by decide),
     ⟨_, _, rfl, by decide⟩⟩,
   ⟨⟨rfl, fun _ => rfl⟩, by decide,
     (handle_pins_to_index true (pinsDriver 1 0)).2 1 1 sampleRegistry.heap 0
       (by decide) ⟨rfl, fun _ => rfl⟩ (by decide)⟩⟩

/-! ## C10: `RotaryEncoder_setRange` -/

/-- C10: for every record and every `min ≤ max`, after
`RotaryEncoder_setRange(encoder, min, max)` the range is `[min, max]` and
the index is inside it: it is the old index when that was inside
`[min, max]`, `max` when the old index was above `max`, and `min` when it
was below `min`. -/
theorem setRange_reclamps_index (e : RotaryEncoder) (min max : RotaryEncoder_Index)
    (hmm : min ≤ max) :
    (RotaryEncoder_setRange e min max).Range = ⟨min, max⟩ ∧
    min ≤ RotaryEncoder_getIndex (RotaryEncoder_setRange e min max) ∧
    RotaryEncoder_getIndex (RotaryEncoder_setRange e min max) ≤ max ∧
    (min ≤ e.Index → e.Index ≤ max →
      RotaryEncoder_getIndex (RotaryEncoder_setRange e min max) = e.Index) ∧
    (max < e.Index → RotaryEncoder_getIndex (RotaryEncoder_setRange e min max) = max) ∧
    (e.Index < min → RotaryEncoder_getIndex (RotaryEncoder_setRange e min max) = min) := by
  have key : ∀ (lo hi x : Int), lo ≤ hi →
      lo ≤ (if x > hi then hi else if x < lo then lo else x) ∧
      (if x > hi then hi else if x < lo then lo else x) ≤ hi ∧
      (lo ≤ x → x ≤ hi → (if x > hi then hi else if x < lo then lo else x) = x) ∧
      (hi < x → (if x > hi then hi else if x < lo then lo else x) = hi) ∧
      (x < lo → (if x > hi then hi else if x < lo then lo else x) = lo) := by
    intro lo hi x h
    refine ⟨?_, ?_, ?_, ?_, ?_⟩
    · split_ifs <;> omega
    · split_ifs <;> omega
    · intro _ _; split_ifs <;> omega
    · intro _; split_ifs <;> omega
    · intro _; split_ifs <;> omega
  unfold RotaryEncoder_getIndex RotaryEncoder_setRange RotaryEncoder_setIndex
  exact ⟨rfl, key min max e.Index hmm⟩

/-- C10 at Range = [0, 3], Index = 0 and the new range [2, 9]: the index
becomes 2. -/
theorem setRange_reclamps_index_witness :
    (2 : Int) ≤ 9 ∧
    (RotaryEncoder_setRange sampleRecord 2 9).Range = ⟨2, 9⟩ ∧
    RotaryEncoder_getIndex (RotaryEncoder_setRange sampleRecord 2 9) = 2 :=
  ⟨by decide, (setRange_reclamps_index sampleRecord 2 9 (by decide)).1,
    (setRange_reclamps_index sampleRecord 2 9 (by decide)).2.2.2.2.2 (by decide)⟩

/-! ## Several ticks in a row -/

/-- A relation between a record before the first tick and the record now
that every pass of the loop body keeps, holds after any number of chain-mode
ticks; the ticks return, and every event comes from a pass of the loop body
over a record so related. -/
theorem Chain.ticks_relate (enableFlag : Bool) (fuel : Nat)
    (R : RotaryEncoder → RotaryEncoder → Prop)
    (hstep : ∀ drv a e₀ e, R e₀ e → R e₀ (handleRecord enableFlag drv a e).1)
    (h₀ : Heap) (l : List Ptr) :
    ∀ (drvs : List RotaryEncoder_Driver) (reg : Registry),
      ChainFrom reg.heap reg.lastEncoder l → l.length < fuel →
      (∀ a, R (h₀ a) (reg.heap a)) →
      ∃ reg' evs, Chain.ticks enableFlag fuel drvs reg = .ok (reg', evs) ∧
        reg'.lastEncoder = reg.lastEncoder ∧
        ChainFrom reg'.heap reg'.lastEncoder l ∧
        (∀ a, R (h₀ a) (reg'.heap a)) ∧
        (∀ ev ∈ evs, ∃ drv a e, R (h₀ a) e ∧ ev ∈ (handleRecord enableFlag drv a e).2) := by
  intro drvs
  induction drvs with
  | nil =>
    intro reg hc _ hR
    exact ⟨reg, [], rfl, rfl, hc, hR, fun ev hev => by cases hev⟩
  | cons drv rest ih =>
    intro reg hc hfuel hR
    have hrun := Chain.handle_spec enableFlag drv reg l fuel hc hfuel
    have hc1 : ChainFrom
        (fun a => if a ∈ l then (handleRecord enableFlag drv a (reg.heap a)).1 else reg.heap a)
        reg.lastEncoder l := by
      refine ChainFrom.congr (fun a ha => ?_) hc
      simp only [ha, if_true, handleRecord_previous]
    have hR1 : ∀ a, R (h₀ a)
        (if a ∈ l then (handleRecord enableFlag drv a (reg.heap a)).1 else reg.heap a) := by
      intro a
      by_cases ha : a ∈ l
      · rw [if_pos ha]
        exact hstep drv a _ _ (hR a)
      · rw [if_neg ha]
        exact hR a
    obtain ⟨reg', evs, hrest, hhead, hc', hR', hev'⟩ :=
      ih ⟨fun a => if a ∈ l then (handleRecord enableFlag drv a (reg.heap a)).1
                   else reg.heap a, reg.lastEncoder⟩ hc1 hfuel hR1
    refine ⟨reg', (l.flatMap fun a => (handleRecord enableFlag drv a (reg.heap a)).2) ++ evs,
      ?_, hhead, hc', hR', ?_⟩
    · simp only [Chain.ticks, hrun, hrest]
    · intro ev hev
      rcases List.mem_append.1 hev with h | h
      · obtain ⟨a, _, ha⟩ := List.mem_flatMap.1 h
        exact ⟨drv, a, reg.heap a, hR a, ha⟩
      · exact hev' ev h

/-- The array-mode counterpart of `Chain.ticks_relate`. -/
theorem Fixed.ticks_relate_slots (enableFlag : Bool) (MAX_NUM : Nat) (encoders : Ptr)
    (R : RotaryEncoder → RotaryEncoder → Prop)
    (hstep : ∀ drv a e₀ e, R e₀ e → R e₀ (handleRecord enableFlag drv a e).1)
    (h₀ : Heap) :
    ∀ (drvs : List RotaryEncoder_Driver) (heap : Heap), (∀ a, R (h₀ a) (heap a)) →
      (∀ a, R (h₀ a) ((Fixed.ticks enableFlag MAX_NUM encoders drvs heap).1 a)) ∧
      (∀ ev ∈ (Fixed.ticks enableFlag MAX_NUM encoders drvs heap).2,
        ∃ drv a e, R (h₀ a) e ∧ ev ∈ (handleRecord enableFlag drv a e).2) := by
  intro drvs
  induction drvs with
  | nil =>
    intro heap hR
    exact ⟨hR, fun ev hev => by cases hev⟩
  | cons drv rest ih =>
    intro heap hR
    have hrun : Fixed.RotaryEncoder_handle enableFlag drv MAX_NUM encoders heap = _ :=
      Fixed.arrayLoop_spec enableFlag drv (MAX_NUM % 256) heap encoders
    have hR1 : ∀ a, R (h₀ a)
        ((Fixed.RotaryEncoder_handle enableFlag drv MAX_NUM encoders heap).1 a) := by
      intro a
      rw [hrun]
      dsimp only
      split_ifs
      · exact hstep drv a _ _ (hR a)
      · exact hR a
    obtain ⟨hR', hev'⟩ := ih _ hR1
    refine ⟨hR', ?_⟩
    intro ev hev
    simp only [Fixed.ticks] at hev
    rcases List.mem_append.1 hev with h | h
    · rw [hrun] at h
      obtain ⟨i, _, hi⟩ := List.mem_flatMap.1 h
      by_cases hcfg : (heap (encoders + i)).Configured = true
      · rw [if_pos hcfg] at hi
        exact ⟨drv, encoders + i, heap (encoders + i), hR _, hi⟩
      · rw [if_neg hcfg] at hi
        cases hi
    · exact hev' ev h

/-! ## C11: a disabled record is skipped -/

theorem handleRecord_disabled (drv : RotaryEncoder_Driver) (a : Ptr) (e : RotaryEncoder)
    (h : e.Enabled = false) : handleRecord true drv a e = (e, []) := by
  unfold handleRecord
  simp [h]

/-- C11: with the `Enabled` test compiled in, a record whose `Enabled` flag
is false is skipped by every tick: after any number of ticks, whatever the
pin values of each tick, its LastDirection and Index are what they were and
no `onChange` call was made for it.  Chain mode (the ticks return over a
chain that ends at null) and array mode. -/
theorem disabled_record_is_skipped (drvs : List RotaryEncoder_Driver) :
    (∀ (reg : Registry) (l : List Ptr) (fuel : Nat) (r : Ptr),
      ChainFrom reg.heap reg.lastEncoder l → l.length < fuel → r ∈ l →
      (reg.heap r).Enabled = false →
      ∃ reg' evs, Chain.ticks true fuel drvs reg = .ok (reg', evs) ∧
        (reg'.heap r).LastDirection = (reg.heap r).LastDirection ∧
        (reg'.heap r).Index = (reg.heap r).Index ∧
        ∀ cb d seen, Event.onChange cb r d seen ∉ evs) ∧
    (∀ (MAX_NUM : Nat) (encoders : Ptr) (heap : Heap) (i : Nat), i < MAX_NUM % 256 →
      (heap (encoders + i)).Enabled = false →
      ((Fixed.ticks true MAX_NUM encoders drvs heap).1 (encoders + i)).LastDirection
          = (heap (encoders + i)).LastDirection ∧
        ((Fixed.ticks true MAX_NUM encoders drvs heap).1 (encoders + i)).Index
          = (heap (encoders + i)).Index ∧
        ∀ cb d seen, Event.onChange cb (encoders + i) d seen ∉
          (Fixed.ticks true MAX_NUM encoders drvs heap).2) := by
  have hstep : ∀ (drv : RotaryEncoder_Driver) (a : Ptr) (e₀ e : RotaryEncoder),
      (e₀.Enabled = false → e = e₀) →
      (e₀.Enabled = false → (handleRecord true drv a e).1 = e₀) := by
    intro drv a e₀ e h hdis
    have he := h hdis
    subst he
    rw [handleRecord_disabled drv a e hdis]
  have hquiet : ∀ (h₀ : Heap) (r : Ptr), (h₀ r).Enabled = false →
      ∀ (cb : Ptr) (d : RotaryEncoder_Direction) (seen : RotaryEncoder),
      ¬ ∃ drv a e, ((h₀ a).Enabled = false → e = h₀ a) ∧
        Event.onChange cb r d seen ∈ (handleRecord true drv a e).2 := by
    rintro h₀ r hdis cb d seen ⟨drv, a, e, hrel, hmem⟩
    have har := (mem_handleRecord_onChange true drv a e cb r d seen hmem).1
    subst har
    have he := hrel hdis
    subst he
    rw [handleRecord_disabled drv a _ hdis] at hmem
    cases hmem
  constructor
  · intro reg l fuel r hc hfuel _ hdis
    obtain ⟨reg', evs, hrun, _, _, hR, hev⟩ :=
      Chain.ticks_relate true fuel (fun e₀ e => e₀.Enabled = false → e = e₀) hstep reg.heap l
        drvs reg hc hfuel (fun _ _ => rfl)
    refine ⟨reg', evs, hrun, ?_, ?_, ?_⟩
    · rw [hR r hdis]
    · rw [hR r hdis]
    · intro cb d seen hmem
      exact hquiet reg.heap r hdis cb d seen (hev _ hmem)
  · intro MAX_NUM encoders heap i _ hdis
    obtain ⟨hR, hev⟩ :=
      Fixed.ticks_relate_slots true MAX_NUM encoders (fun e₀ e => e₀.Enabled = false → e = e₀)
        hstep heap drvs heap (fun _ _ => rfl)
    refine ⟨?_, ?_, ?_⟩
    · rw [hR _ hdis]
    · rw [hR _ hdis]
    · intro cb d seen hmem
      exact hquiet heap _ hdis cb d seen (hev _ hmem)

/-- C11 at a registry whose only record was disabled with
`RotaryEncoder_setEnabled(encoder, 0)`, over three ticks with different pin
values, and at a one-slot array holding the same record. -/
theorem disabled_record_is_skipped_witness :
    (ChainFrom disabledRegistry.heap disabledRegistry.lastEncoder [1] ∧
      (disabledRegistry.heap 1).Enabled = false ∧
      ∃ reg' evs,
        Chain.ticks true 2 [pinsDriver 1 0, pinsDriver 1 1, pinsDriver 0 1] disabledRegistry
          = .ok (reg', evs) ∧
        (reg'.heap 1).LastDirection = (disabledRegistry.heap 1).LastDirection ∧
        (reg'.heap 1).Index = (disabledRegistry.heap 1).Index ∧
        ∀ cb d seen, Event.onChange cb 1 d seen ∉ evs) ∧
    ((disabledRegistry.heap (1 + 0)).Enabled = false ∧
      ((Fixed.ticks true 1 1 [pinsDriver 1 0, pinsDriver 1 1, pinsDriver 0 1]
          disabledRegistry.heap).1 (1 + 0)).LastDirection
          = (disabledRegistry.heap (1 + 0)).LastDirection ∧
        ((Fixed.ticks true 1 1 [pinsDriver 1 0, pinsDriver 1 1, pinsDriver 0 1]
          disabledRegistry.heap).1 (1 + 0)).Index
          = (disabledRegistry.heap (1 + 0)).Index ∧
        ∀ cb d seen, Event.onChange cb (1 + 0) d seen ∉
          (Fixed.ticks true 1 1 [pinsDriver 1 0, pinsDriver 1 1, pinsDriver 0 1]
            disabledRegistry.heap).2) :=
  ⟨⟨by decide, rfl,
     (disabled_record_is_skipped [pinsDriver 1 0, pinsDriver 1 1, pinsDriver 0 1]).1
       disabledRegistry [1] 2 1 (by decide) (by decide) (by decide) rfl⟩,
   ⟨rfl,
     (disabled_record_is_skipped [pinsDriver 1 0, pinsDriver 1 1, pinsDriver 0 1]).2
       1 1 disabledRegistry.heap 0 (by decide) rfl⟩⟩

/-! ## C12: what the callback observes -/

theorem readDirection_mod_two (drv : RotaryEncoder_Driver) (e : RotaryEncoder) :
    readDirection drv e % 2 = readDirection drv e := by
  unfold readDirection
  split_ifs <;> rfl

theorem decode_callback (drv : RotaryEncoder_Driver) (r : Ptr) (e : RotaryEncoder)
    (hcb : e.onChange ≠ 0) :
    CallbackObserves e r (decode drv r e).1 (decode drv r e).2 := by
  refine ⟨readDirection drv e, stepIndex e (readDirection drv e), ?_, ?_, ?_, ?_, ?_, ?_⟩
  · exact (mem_decode_onChange drv r e _ r _ _).2 ⟨rfl, hcb, rfl, rfl, rfl⟩
  · intro cb d' seen' h
    obtain ⟨_, _, h3, h4, h5⟩ := (mem_decode_onChange drv r e cb r d' seen').1 h
    exact ⟨h3, h4, h5⟩
  · rw [decode_fst]
  · have h := decode_index_follows_direction drv r e
    unfold IndexFollowsDirection at h ⊢
    rw [decode_fst] at h
    exact h
  · rw [stepIndex_frame]
  · rw [decode_fst]
    exact readDirection_mod_two drv e

theorem CallbackObserves.of_subtick {e : RotaryEncoder} {r : Ptr}
    {a₁ a₂ : RotaryEncoder} {evs₁ evs₂ : List Event} (h : CallbackObserves e r a₁ evs₁)
    (ha : a₂ = a₁) (hsub : ∀ ev ∈ evs₁, ev ∈ evs₂)
    (hback : ∀ cb d seen, Event.onChange cb r d seen ∈ evs₂ →
      Event.onChange cb r d seen ∈ evs₁) :
    CallbackObserves e r a₂ evs₂ := by
  subst ha
  obtain ⟨d, seen, h1, h2, h3, h4, h5, h6⟩ := h
  exact ⟨d, seen, hsub _ h1, fun cb d' seen' hev => h2 cb d' seen' (hback cb d' seen' hev),
    h3, h4, h5, h6⟩

/-- C12: for every eligible record with a registered callback, in chain mode
and in array mode, the tick calls the callback; the record the callback
sees has the freshly computed, already wrapped index that the tick leaves
behind and the LastDirection from before the tick; after the tick
LastDirection is the direction that was passed to the callback. -/
theorem callback_sees_new_index_and_old_direction (enableFlag : Bool)
    (drv : RotaryEncoder_Driver) :
    (∀ (reg : Registry) (l : List Ptr) (fuel : Nat) (r : Ptr),
      ChainFrom reg.heap reg.lastEncoder l → l.length < fuel → r ∈ l →
      Chain.Eligible enableFlag (reg.heap r) → (reg.heap r).onChange ≠ 0 →
      ∃ reg' evs, Chain.RotaryEncoder_handle enableFlag drv fuel reg = .ok (reg', evs) ∧
        CallbackObserves (reg.heap r) r (reg'.heap r) evs) ∧
    (∀ (MAX_NUM : Nat) (encoders : Ptr) (heap : Heap) (i : Nat), i < MAX_NUM % 256 →
      Fixed.Eligible enableFlag (heap (encoders + i)) →
      (heap (encoders + i)).onChange ≠ 0 →
      CallbackObserves (heap (encoders + i)) (encoders + i)
        ((Fixed.RotaryEncoder_handle enableFlag drv MAX_NUM encoders heap).1 (encoders + i))
        (Fixed.RotaryEncoder_handle enableFlag drv MAX_NUM encoders heap).2) := by
  constructor
  · intro reg l fuel r hc hfuel hr hel hcb
    obtain ⟨reg', evs, hrun, hrec, hsub, hback⟩ :=
      Chain.handle_at enableFlag drv reg l fuel r hc hfuel hr hel
    exact ⟨reg', evs, hrun, (decode_callback drv r (reg.heap r) hcb).of_subtick hrec hsub hback⟩
  · intro MAX_NUM encoders heap i hi hel hcb
    obtain ⟨hrec, hsub, hback⟩ := Fixed.handle_slot enableFlag drv MAX_NUM encoders heap i hi hel
    exact (decode_callback drv _ _ hcb).of_subtick hrec hsub hback

/-- C12 at the registry of the spec scenario (callback 5, LastDirection 0
before the tick, Data = Clock = 1) and at a one-slot array holding the same
record. -/
theorem callback_sees_new_index_and_old_direction_witness :
    (ChainFrom sampleRegistry.heap sampleRegistry.lastEncoder [1] ∧
      Chain.Eligible true (sampleRegistry.heap 1) ∧ (sampleRegistry.heap 1).onChange ≠ 0 ∧
      ∃ reg' evs, Chain.RotaryEncoder_handle true (pinsDriver 1 1) 2 sampleRegistry
          = .ok (reg', evs) ∧
        CallbackObserves (sampleRegistry.heap 1) 1 (reg'.heap 1) evs) ∧
    (Fixed.Eligible true (sampleRegistry.heap (1 + 0)) ∧
      (sampleRegistry.heap (1 + 0)).onChange ≠ 0 ∧
      CallbackObserves (sampleRegistry.heap (1 + 0)) (1 + 0)
        ((Fixed.RotaryEncoder_handle true (pinsDriver 1 1) 1 1 sampleRegistry.heap).1 (1 + 0))
        (Fixed.RotaryEncoder_handle true (pinsDriver 1 1) 1 1 sampleRegistry.heap).2) :=
  ⟨⟨by decide, fun _ => rfl, by decide,
     (callback_sees_new_index_and_old_direction true (pinsDriver 1 1)).1 sampleRegistry [1] 2 1
       (by decide) (by decide) (by decide) (fun _ => rfl) (by decide)⟩,
   ⟨⟨rfl, fun _ => rfl⟩, by decide,
     (callback_sees_new_index_and_old_direction true (pinsDriver 1 1)).2 1 1
       sampleRegistry.heap 0 (by decide) ⟨rfl, fun _ => rfl⟩ (by decide)⟩⟩

/-! ## C13: the index stays inside its range -/

theorem wrapIntoRange_inside (range : RotaryEncoder_IndexRange) (x : Int)
    (h : range.Min ≤ range.Max) :
    range.Min ≤ wrapIntoRange range x ∧ wrapIntoRange range x ≤ range.Max := by
  have key : ∀ (lo hi x : Int), lo ≤ hi →
      lo ≤ (if x > hi then lo else if x < lo then hi else x) ∧
      (if x > hi then lo else if x < lo then hi else x) ≤ hi := by
    intro lo hi x hle
    constructor <;> split_ifs <;> omega
  exact key range.Min range.Max x h

theorem handleRecord_keeps_range (enableFlag : Bool) (drv : RotaryEncoder_Driver) (a : Ptr)
    (e : RotaryEncoder) :
    (handleRecord enableFlag drv a e).1.Range = e.Range ∧
    (e.Range.Min ≤ e.Range.Max → IndexInRange e →
      IndexInRange (handleRecord enableFlag drv a e).1) := by
  unfold handleRecord
  split_ifs
  · exact ⟨rfl, fun _ h => h⟩
  · refine ⟨by rw [decode_fst], fun hmm _ => ?_⟩
    have hidx := decode_index drv a e
    have hrange : (decode drv a e).1.Range = e.Range := by rw [decode_fst]
    unfold IndexInRange
    rw [hidx, hrange]
    exact wrapIntoRange_inside e.Range _ hmm

/-- C13: for every record with Range.Min ≤ Range.Max and Index inside
[Range.Min, Range.Max], whatever the values of the three fields (the ends of
`int16_t` included) and whatever the pin values of each tick, after any
number of ticks (one tick is a list of one driver) the range is the same and
the index is inside it.  Chain mode (the ticks return over a chain that ends
at null) and array mode. -/
theorem index_stays_in_range_under_ticks (enableFlag : Bool)
    (drvs : List RotaryEncoder_Driver) :
    (∀ (reg : Registry) (l : List Ptr) (fuel : Nat) (r : Ptr),
      ChainFrom reg.heap reg.lastEncoder l → l.length < fuel →
      (reg.heap r).Range.Min ≤ (reg.heap r).Range.Max → IndexInRange (reg.heap r) →
      ∃ reg' evs, Chain.ticks enableFlag fuel drvs reg = .ok (reg', evs) ∧
        (reg'.heap r).Range = (reg.heap r).Range ∧ IndexInRange (reg'.heap r)) ∧
    (∀ (MAX_NUM : Nat) (encoders : Ptr) (heap : Heap) (r : Ptr),
      (heap r).Range.Min ≤ (heap r).Range.Max → IndexInRange (heap r) →
      ((Fixed.ticks enableFlag MAX_NUM encoders drvs heap).1 r).Range = (heap r).Range ∧
        IndexInRange ((Fixed.ticks enableFlag MAX_NUM encoders drvs heap).1 r)) := by
  have hstep : ∀ (drv : RotaryEncoder_Driver) (a : Ptr) (e₀ e : RotaryEncoder),
      (e.Range = e₀.Range ∧
        (e₀.Range.Min ≤ e₀.Range.Max → IndexInRange e₀ → IndexInRange e)) →
      ((handleRecord enableFlag drv a e).1.Range = e₀.Range ∧
        (e₀.Range.Min ≤ e₀.Range.Max → IndexInRange e₀ →
          IndexInRange (handleRecord enableFlag drv a e).1)) := by
    intro drv a e₀ e ⟨hrange, hin⟩
    obtain ⟨h1, h2⟩ := handleRecord_keeps_range enableFlag drv a e
    refine ⟨h1.trans hrange, fun hmm h0 => h2 ?_ (hin hmm h0)⟩
    rw [hrange]
    exact hmm
  constructor
  · intro reg l fuel r hc hfuel hmm hin
    obtain ⟨reg', evs, hrun, _, _, hR, _⟩ :=
      Chain.ticks_relate enableFlag fuel
        (fun e₀ e => e.Range = e₀.Range ∧
          (e₀.Range.Min ≤ e₀.Range.Max → IndexInRange e₀ → IndexInRange e))
        hstep reg.heap l drvs reg hc hfuel (fun _ => ⟨rfl, fun _ h => h⟩)
    exact ⟨reg', evs, hrun, (hR r).1, (hR r).2 hmm hin⟩
  · intro MAX_NUM encoders heap r hmm hin
    obtain ⟨hR, _⟩ :=
      Fixed.ticks_relate_slots enableFlag MAX_NUM encoders
        (fun e₀ e => e.Range = e₀.Range ∧
          (e₀.Range.Min ≤ e₀.Range.Max → IndexInRange e₀ → IndexInRange e))
        hstep heap drvs heap (fun _ => ⟨rfl, fun _ h => h⟩)
    exact ⟨(hR r).1, (hR r).2 hmm hin⟩

/-- C13 at Range = [0, 32767], Index = 32767, over two ticks that step the
index up and one that steps it down, in chain mode and in a one-slot array. -/
theorem index_stays_in_range_under_ticks_witness :
    (ChainFrom (rangeRegistry 0 32767 32767).heap (rangeRegistry 0 32767 32767).lastEncoder [1] ∧
      ((rangeRegistry 0 32767 32767).heap 1).Range.Min
        ≤ ((rangeRegistry 0 32767 32767).heap 1).Range.Max ∧
      IndexInRange ((rangeRegistry 0 32767 32767).heap 1) ∧
      ∃ reg' evs,
        Chain.ticks true 2 [pinsDriver 1 0, pinsDriver 0 1, pinsDriver 1 1]
          (rangeRegistry 0 32767 32767) = .ok (reg', evs) ∧
        (reg'.heap 1).Range = ((rangeRegistry 0 32767 32767).heap 1).Range ∧
        IndexInRange (reg'.heap 1)) ∧
    (((rangeRegistry 0 32767 32767).heap 1).Range.Min
        ≤ ((rangeRegistry 0 32767 32767).heap 1).Range.Max ∧
      IndexInRange ((rangeRegistry 0 32767 32767).heap 1) ∧
      ((Fixed.ticks true 1 1 [pinsDriver 1 0, pinsDriver 0 1, pinsDriver 1 1]
          (rangeRegistry 0 32767 32767).heap).1 1).Range
        = ((rangeRegistry 0 32767 32767).heap 1).Range ∧
      IndexInRange ((Fixed.ticks true 1 1 [pinsDriver 1 0, pinsDriver 0 1, pinsDriver 1 1]
          (rangeRegistry 0 32767 32767).heap).1 1)) :=
  ⟨⟨by decide, by decide, by decide,
     (index_stays_in_range_under_ticks true [pinsDriver 1 0, pinsDriver 0 1, pinsDriver 1 1]).1
       (rangeRegistry 0 32767 32767) [1] 2 1 (by decide) (by decide) (by decide) (by decide)⟩,
   ⟨by decide, by decide,
     (index_stays_in_range_under_ticks true [pinsDriver 1 0, pinsDriver 0 1, pinsDriver 1 1]).2
       1 1 (rangeRegistry 0 32767 32767).heap 1 (by decide) (by decide)⟩⟩

/-! ## C14: `add` on the null record -/

/-- C14: `RotaryEncoder_add` called with the null record returns 0, hands
back the registry it was given (head and every record as they were) and
calls no driver function, for every registry state, every pins argument and
every driver; chain mode and array mode. -/
theorem add_null_is_noop (drv : RotaryEncoder_Driver) (config : Ptr) :
    (∀ reg : Registry,
      Chain.RotaryEncoder_add drv reg ROTARY_ENCODER_NULL config = .ok (reg, 0, [])) ∧
    (∀ heap : Heap,
      Fixed.RotaryEncoder_add drv heap ROTARY_ENCODER_NULL config = .ok (heap, 0, [])) := by
  constructor
  · intro reg
    unfold Chain.RotaryEncoder_add
    rw [if_pos rfl]
  · intro heap
    unfold Fixed.RotaryEncoder_add
    rw [if_pos rfl]

/-! ## C15: what `add` leaves behind -/

/-- C15: in chain mode, for every non-null record `r` and pin-pair reference
`p`, `add(r, p)` returns 1 (the driver supplying `initPin`, which the call
goes through) and afterwards `r.Config = p`, `r.Configured` and `r.Enabled`
are set, `r.Previous` is the head from before the call, the head is `r`, and
every other record is as it was. -/
theorem add_links_record_as_head (drv : RotaryEncoder_Driver) (reg : Registry) (r p : Ptr)
    (hr : r ≠ ROTARY_ENCODER_NULL) (hinit : drv.initPin = true) :
    ∃ reg' evs, Chain.RotaryEncoder_add drv reg r p = .ok (reg', 1, evs) ∧
      (reg'.heap r).Config = p ∧ (reg'.heap r).Configured = true ∧
      (reg'.heap r).Enabled = true ∧ (reg'.heap r).Previous = reg.lastEncoder ∧
      reg'.lastEncoder = r ∧ ∀ a, a ≠ r → reg'.heap a = reg.heap a := by
  refine ⟨_, _, Chain.add_spec drv reg r p hr hinit, ?_, ?_, ?_, ?_, rfl, ?_⟩
  · simp only [Function.update_same]
  · simp only [Function.update_same]
  · simp only [Function.update_same]
  · simp only [Function.update_same]
  · intro a ha
    simp only [Function.update_noteq ha]

/-- C15 at the two-record chain: `add(3, 9)`. -/
theorem add_links_record_as_head_witness :
    (3 : Ptr) ≠ ROTARY_ENCODER_NULL ∧ (pinsDriver 1 0).initPin = true ∧
    ∃ reg' evs, Chain.RotaryEncoder_add (pinsDriver 1 0) twoRegistry 3 9 = .ok (reg', 1, evs) ∧
      (reg'.heap 3).Config = 9 ∧ (reg'.heap 3).Configured = true ∧
      (reg'.heap 3).Enabled = true ∧ (reg'.heap 3).Previous = twoRegistry.lastEncoder ∧
      reg'.lastEncoder = 3 ∧ ∀ a, a ≠ 3 → reg'.heap a = twoRegistry.heap a :=
  ⟨by decide, rfl, add_links_record_as_head (pinsDriver 1 0) twoRegistry 3 9 (by decide) rfl⟩

/-! ## C16: `remove` does not look at `Enabled` -/

theorem Chain.unlink_removed (heap : Heap) (x r : Ptr) :
    (Chain.unlink heap x r r).Previous = ROTARY_ENCODER_NULL ∧
    (Chain.unlink heap x r r).Configured = false ∧
    (Chain.unlink heap x r r).Enabled = false := by
  unfold Chain.unlink
  dsimp only
  rw [Function.update_same]
  exact ⟨rfl, rfl, rfl⟩

/-- Removal of a linked record returns 1 after the four writes of `unlink`,
made behind some record `x` (the record itself when it is the head). -/
theorem Chain.remove_linked {reg : Registry} {r : Ptr} {l : List Ptr} {fuel : Nat}
    (hc : ChainFrom reg.heap reg.lastEncoder l) (hfuel : l.length < fuel) (hr : r ∈ l) :
    ∃ x, Chain.RotaryEncoder_remove fuel reg r =
      .ok (⟨Chain.unlink reg.heap x r, reg.lastEncoder⟩, 1) := by
  by_cases hhead : r = reg.lastEncoder
  · cases l with
    | nil => cases hr
    | cons p xs =>
      have hrp : r = p := hhead.trans hc.1
      subst hrp
      exact ⟨r, (Chain.remove_head fuel hc).1⟩
  · cases l with
    | nil => cases hr
    | cons p xs =>
      have hp : reg.lastEncoder = p := hc.1
      have hrxs : r ∈ xs := by
        rcases List.mem_cons.1 hr with h | h
        · exact absurd (h.trans hp.symm) hhead
        · exact h
      obtain ⟨a, x, b, hsplit⟩ := List.split_before_mem (p := p) hrxs
      rw [hsplit] at hc hfuel
      refine ⟨x, ?_⟩
      unfold Chain.RotaryEncoder_remove
      simp only [if_neg hhead, Chain.removeLoop_found a hc hfuel]

theorem Fixed.removeLoop_hit (heap : Heap) :
    ∀ (len : Nat) (p : Ptr) (i : Nat), i < len → (heap (p + i)).Configured = true →
      Fixed.removeLoop (p + i) len heap p =
        (Function.update heap (p + i)
          { heap (p + i) with Configured := false, Enabled := false }, 1) := by
  intro len
  induction len with
  | zero => intro p i hi; cases hi
  | succ n ih =>
    intro p i hi hcfg
    cases i with
    | zero =>
      have h0 : p + 0 = p ∧ (heap p).Configured = true := ⟨rfl, hcfg⟩
      simp only [Fixed.removeLoop, if_pos h0]
      rfl
    | succ k =>
      have hshift : ∀ (p k : Nat), p + (k + 1) = p + 1 + k ∧ p + (k + 1) ≠ p := by
        intro p k; omega
      have h0 : ¬ (p + (k + 1) = p ∧ (heap p).Configured = true) :=
        fun h => (hshift p k).2 h.1
      simp only [Fixed.removeLoop, if_neg h0]
      rw [(hshift p k).1]
      refine ih (p + 1) k (Nat.lt_of_succ_lt_succ hi) ?_
      rw [← (hshift p k).1]
      exact hcfg

/-- C16: removing a record that is present in the registry returns 1 and
leaves the record with Configured and Enabled cleared, whatever its Enabled
flag was.  Chain mode: the record is linked (head or not), the chain ends at
null, and Previous of the record is null afterwards.  Array mode: the record
is a configured slot of an array whose capacity fits the `uint8_t` loop
counter. -/
theorem remove_ignores_enabled_flag :
    (∀ (reg : Registry) (l : List Ptr) (fuel : Nat) (r : Ptr),
      ChainFrom reg.heap reg.lastEncoder l → l.length < fuel → r ∈ l →
      ∃ reg', Chain.RotaryEncoder_remove fuel reg r = .ok (reg', 1) ∧
        (reg'.heap r).Configured = false ∧ (reg'.heap r).Enabled = false ∧
        (reg'.heap r).Previous = ROTARY_ENCODER_NULL) ∧
    (∀ (MAX_NUM : Nat) (encoders : Ptr) (heap : Heap) (i : Nat), MAX_NUM < 256 →
      i < MAX_NUM → (heap (encoders + i)).Configured = true →
      (Fixed.RotaryEncoder_remove MAX_NUM encoders heap (encoders + i)).2 = 1 ∧
      ((Fixed.RotaryEncoder_remove MAX_NUM encoders heap (encoders + i)).1
        (encoders + i)).Configured = false ∧
      ((Fixed.RotaryEncoder_remove MAX_NUM encoders heap (encoders + i)).1
        (encoders + i)).Enabled = false) := by
  constructor
  · intro reg l fuel r hc hfuel hr
    obtain ⟨x, hx⟩ := Chain.remove_linked hc hfuel hr
    obtain ⟨h1, h2, h3⟩ := Chain.unlink_removed reg.heap x r
    exact ⟨_, hx, h2, h3, h1⟩
  · intro MAX_NUM encoders heap i hcap hi hcfg
    unfold Fixed.RotaryEncoder_remove
    rw [Nat.mod_eq_of_lt hcap, Fixed.removeLoop_hit heap MAX_NUM encoders i hi hcfg]
    dsimp only
    rw [Function.update_same]
    exact ⟨rfl, rfl, rfl⟩

/-- C16 at the disabled head of a one-record chain, at the enabled second
record of the two-record chain, and at a disabled configured slot of a
one-slot array. -/
theorem remove_ignores_enabled_flag_witness :
    (ChainFrom disabledRegistry.heap disabledRegistry.lastEncoder [1] ∧
      (disabledRegistry.heap 1).Enabled = false ∧
      ∃ reg', Chain.RotaryEncoder_remove 2 disabledRegistry 1 = .ok (reg', 1) ∧
        (reg'.heap 1).Configured = false ∧ (reg'.heap 1).Enabled = false ∧
        (reg'.heap 1).Previous = ROTARY_ENCODER_NULL) ∧
    (ChainFrom twoRegistry.heap twoRegistry.lastEncoder [1, 2] ∧
      (twoRegistry.heap 2).Enabled = true ∧
      ∃ reg', Chain.RotaryEncoder_remove 3 twoRegistry 2 = .ok (reg', 1) ∧
        (reg'.heap 2).Configured = false ∧ (reg'.heap 2).Enabled = false ∧
        (reg'.heap 2).Previous = ROTARY_ENCODER_NULL) ∧
    ((1 : Nat) < 256 ∧ (disabledRegistry.heap (1 + 0)).Configured = true ∧
      (disabledRegistry.heap (1 + 0)).Enabled = false ∧
      (Fixed.RotaryEncoder_remove 1 1 disabledRegistry.heap (1 + 0)).2 = 1 ∧
      ((Fixed.RotaryEncoder_remove 1 1 disabledRegistry.heap (1 + 0)).1 (1 + 0)).Configured
        = false ∧
      ((Fixed.RotaryEncoder_remove 1 1 disabledRegistry.heap (1 + 0)).1 (1 + 0)).Enabled
        = false) :=
  ⟨⟨by decide, rfl,
     remove_ignores_enabled_flag.1 disabledRegistry [1] 2 1 (by decide) (by decide)
       (by decide)⟩,
   ⟨by decide, rfl,
     remove_ignores_enabled_flag.1 twoRegistry [1, 2] 3 2 (by decide) (by decide)
       (by decide)⟩,
   ⟨by decide, rfl, rfl,
     remove_ignores_enabled_flag.2 1 1 disabledRegistry.heap 0 (by decide) (by decide) rfl⟩⟩

/-! ## C17: only configured records are linked -/

/-- C17, the code at the failing input: `add(1, 7)` on the empty registry,
then `remove(1)`.  Both calls return 1.  Afterwards record 1 is still the
head and the chain from the head is record 1 alone, with Configured = false;
in the build of `RotaryEncoder.h` (no `Enabled` test) the next tick decodes
it and calls its callback. -/
theorem removed_head_stays_linked_unconfigured :
    (∃ evs, Chain.RotaryEncoder_add (pinsDriver 1 1) (Registry.init freshHeap) 1 7
        = .ok (freshAdded, 1, evs)) ∧
    ∃ reg', Chain.RotaryEncoder_remove 2 freshAdded 1 = .ok (reg', 1) ∧
      reg'.lastEncoder = 1 ∧
      ChainFrom reg'.heap reg'.lastEncoder [1] ∧
      (reg'.heap 1).Configured = false ∧
      ∃ reg'' seen, Chain.RotaryEncoder_handle false (pinsDriver 1 0) 2 reg' =
        .ok (reg'', [Event.readPin ⟨7, false⟩, Event.readPin ⟨7, true⟩,
                     Event.onChange 5 1 RotaryEncoder_Direction_ClockWise seen]) :=
  ⟨⟨_, rfl⟩, _, rfl, rfl, by decide, rfl, _, _, rfl⟩

/-! ## C18: `RotaryEncoder_new` -/

/-- The scan of `RotaryEncoder_new` either meets only configured slots and
returns null, or returns the first slot that is not configured. -/
theorem Fixed.newLoop_scan (heap : Heap) :
    ∀ (len : Nat) (p : Ptr),
      (Fixed.newLoop heap len p = ROTARY_ENCODER_NULL ∧
        ∀ i, i < len → (heap (p + i)).Configured = true) ∨
      (∃ i, i < len ∧ Fixed.newLoop heap len p = p + i ∧
        (heap (p + i)).Configured = false ∧
        ∀ j, j < i → (heap (p + j)).Configured = true) := by
  intro len
  induction len with
  | zero =>
    intro p
    exact Or.inl ⟨rfl, fun i hi => absurd hi (Nat.not_lt_zero i)⟩
  | succ n ih =>
    intro p
    have hshift : ∀ (p k : Nat), p + 1 + k = p + (k + 1) := by
      intro p k; omega
    by_cases hcfg : (heap p).Configured = true
    · have hstep : Fixed.newLoop heap (n + 1) p = Fixed.newLoop heap n (p + 1) := by
        simp only [Fixed.newLoop, hcfg, Bool.not_true, Bool.false_eq_true, if_false]
      rw [hstep]
      rcases ih (p + 1) with ⟨hnull, hall⟩ | ⟨i, hi, hret, hfree, hbefore⟩
      · refine Or.inl ⟨hnull, fun i hi => ?_⟩
        cases i with
        | zero => exact hcfg
        | succ k =>
          rw [← hshift p k]
          exact hall k (Nat.lt_of_succ_lt_succ hi)
      · refine Or.inr ⟨i + 1, Nat.succ_lt_succ hi, ?_, ?_, fun j hj => ?_⟩
        · rw [hret, hshift p i]
        · rw [← hshift p i]
          exact hfree
        · cases j with
          | zero => exact hcfg
          | succ k =>
            rw [← hshift p k]
            exact hbefore k (Nat.lt_of_succ_lt_succ hj)
    · have hfalse : (heap p).Configured = false := by
        cases h : (heap p).Configured
        · rfl
        · exact absurd h hcfg
      refine Or.inr ⟨0, Nat.succ_pos n, ?_, hfalse, fun j hj => absurd hj (Nat.not_lt_zero j)⟩
      simp only [Fixed.newLoop, hfalse, Bool.not_false, if_true]
      rfl

/-- C18, counterexample: the loop counter is `uint8_t len =
ROTARY_ENCODER_MAX_NUM`.  With a capacity of 256 it starts at 0, so over an
array whose slots are all free `RotaryEncoder_new` returns null where the
claim asks for slot 0; with a capacity of 257 only slot 0 is scanned, so
with slot 0 configured and slot 1 free the call returns null where the claim
asks for slot 1. -/
theorem new_misses_free_slots_beyond_uint8 :
    (0 < 256 ∧ (zeroHeap (1 + 0)).Configured = false ∧
      Fixed.RotaryEncoder_new 256 1 zeroHeap = ROTARY_ENCODER_NULL ∧
      (1 : Ptr) + 0 ≠ ROTARY_ENCODER_NULL) ∧
    (0 < 257 ∧ (sampleRegistry.heap (1 + 0)).Configured = true ∧
      (sampleRegistry.heap (1 + 1)).Configured = false ∧
      Fixed.RotaryEncoder_new 257 1 sampleRegistry.heap = ROTARY_ENCODER_NULL ∧
      (1 : Ptr) + 1 ≠ ROTARY_ENCODER_NULL) :=
  ⟨⟨by decide, rfl, rfl, by decide⟩, ⟨by decide, rfl, rfl, rfl, by decide⟩⟩

/-- C18, amended: in array mode with a capacity of at most 255, which is what
the `uint8_t` loop counter holds, and the array at a non-null address, for
every state of the slots `RotaryEncoder_new` returns the slot with the
lowest index whose Configured flag is false, returns null exactly when every
slot is configured, and a non-null result is a slot of the array that is
not configured.  The function contains no store, so it has no memory result
in the embedding. -/
theorem new_returns_first_free_slot (MAX_NUM : Nat) (encoders : Ptr) (heap : Heap)
    (hcap : MAX_NUM < 256) (henc : encoders ≠ ROTARY_ENCODER_NULL) :
    (∀ i, i < MAX_NUM → (heap (encoders + i)).Configured = false →
      (∀ j, j < i → (heap (encoders + j)).Configured = true) →
      Fixed.RotaryEncoder_new MAX_NUM encoders heap = encoders + i) ∧
    (Fixed.RotaryEncoder_new MAX_NUM encoders heap = ROTARY_ENCODER_NULL ↔
      ∀ i, i < MAX_NUM → (heap (encoders + i)).Configured = true) ∧
    (Fixed.RotaryEncoder_new MAX_NUM encoders heap ≠ ROTARY_ENCODER_NULL →
      (heap (Fixed.RotaryEncoder_new MAX_NUM encoders heap)).Configured = false ∧
      ∃ i, i < MAX_NUM ∧ Fixed.RotaryEncoder_new MAX_NUM encoders heap = encoders + i) := by
  have hnn : ∀ (p i : Nat), p ≠ 0 → p + i ≠ 0 := by
    intro p i hp; omega
  have hslot : ∀ i, encoders + i ≠ ROTARY_ENCODER_NULL := fun i => hnn encoders i henc
  have hlt : ∀ (i j : Nat), i < j ∨ i = j ∨ j < i := by
    intro i j; omega
  unfold Fixed.RotaryEncoder_new
  rw [Nat.mod_eq_of_lt hcap]
  rcases Fixed.newLoop_scan heap MAX_NUM encoders with
    ⟨hnull, hall⟩ | ⟨k, hk, hret, hfree, hbefore⟩
  · refine ⟨fun i hi hfree _ => ?_, ⟨fun _ => hall, fun _ => hnull⟩, fun hne => absurd hnull hne⟩
    rw [hall i hi] at hfree
    cases hfree
  · refine ⟨fun i hi hfi hbefore' => ?_, ⟨fun hnull => ?_, fun hall => ?_⟩,
      fun _ => ⟨by rw [hret]; exact hfree, k, hk, hret⟩⟩
    · rw [hret]
      rcases hlt i k with h | h | h
      · rw [hbefore i h] at hfi
        cases hfi
      · rw [h]
      · rw [hbefore' k h] at hfree
        cases hfree
    · rw [hret] at hnull
      exact absurd hnull (hslot k)
    · rw [hall k hk] at hfree
      cases hfree

/-- C18, amended, at a two-slot array at address 1 whose first slot is
configured and whose second slot is free: the call returns the second slot. -/
theorem new_returns_first_free_slot_witness :
    (2 : Nat) < 256 ∧ (1 : Ptr) ≠ ROTARY_ENCODER_NULL ∧
    (sampleRegistry.heap (1 + 0)).Configured = true ∧
    (sampleRegistry.heap (1 + 1)).Configured = false ∧
    Fixed.RotaryEncoder_new 2 1 sampleRegistry.heap = 1 + 1 :=
  ⟨by decide, by decide, rfl, rfl,
    (new_returns_first_free_slot 2 1 sampleRegistry.heap (by decide) (by decide)).1 1
      (by decide) rfl (fun j hj => by
        have hj0 : j = 0 := by omega
        subst hj0
        rfl)⟩

/-! ## C19: the frame of a tick -/

theorem handleRecord_frame (enableFlag : Bool) (drv : RotaryEncoder_Driver) (a : Ptr)
    (e : RotaryEncoder) :
    SameButIndexAndDirection e (handleRecord enableFlag drv a e).1 := by
  unfold handleRecord
  split_ifs
  · exact ⟨rfl, rfl, rfl, rfl, rfl, rfl, rfl, rfl, rfl, rfl⟩
  · rw [decode_fst]
    exact ⟨rfl, rfl, rfl, rfl, rfl, rfl, rfl, rfl, rfl, rfl⟩

theorem handleRecord_not_eligible (enableFlag : Bool) (drv : RotaryEncoder_Driver) (a : Ptr)
    (e : RotaryEncoder) (h : ¬ (enableFlag = true → e.Enabled = true)) :
    (handleRecord enableFlag drv a e).1 = e := by
  unfold handleRecord
  cases enableFlag
  · exact absurd (fun hf => absurd hf (by decide)) h
  · cases hen : e.Enabled
    · simp
    · exact absurd (fun _ => hen) h

/-- C19: callbacks and driver functions leaving the registry alone, one tick
changes nothing but the Index and LastDirection of the records it decodes:
the head is the same, every field other than those two is the same in every
record, and a record the tick does not decode (not linked, or not a slot the
loop reaches, or not eligible) is the same altogether.  Chain mode (the tick
returns over a chain that ends at null) and array mode. -/
theorem handle_changes_only_index_and_direction (enableFlag : Bool)
    (drv : RotaryEncoder_Driver) :
    (∀ (reg : Registry) (l : List Ptr) (fuel : Nat),
      ChainFrom reg.heap reg.lastEncoder l → l.length < fuel →
      ∃ reg' evs, Chain.RotaryEncoder_handle enableFlag drv fuel reg = .ok (reg', evs) ∧
        reg'.lastEncoder = reg.lastEncoder ∧
        (∀ a, SameButIndexAndDirection (reg.heap a) (reg'.heap a)) ∧
        (∀ a, (a ∉ l ∨ ¬ Chain.Eligible enableFlag (reg.heap a)) →
          reg'.heap a = reg.heap a)) ∧
    (∀ (MAX_NUM : Nat) (encoders : Ptr) (heap : Heap),
      (∀ a, SameButIndexAndDirection (heap a)
        ((Fixed.RotaryEncoder_handle enableFlag drv MAX_NUM encoders heap).1 a)) ∧
      (∀ a, ((∀ i, i < MAX_NUM % 256 → a ≠ encoders + i) ∨
          ¬ Fixed.Eligible enableFlag (heap a)) →
        (Fixed.RotaryEncoder_handle enableFlag drv MAX_NUM encoders heap).1 a = heap a)) := by
  have hsame : ∀ e : RotaryEncoder, SameButIndexAndDirection e e :=
    fun e => ⟨rfl, rfl, rfl, rfl, rfl, rfl, rfl, rfl, rfl, rfl⟩
  constructor
  · intro reg l fuel hc hfuel
    refine ⟨_, _, Chain.handle_spec enableFlag drv reg l fuel hc hfuel, rfl, ?_, ?_⟩
    · intro a
      dsimp only
      split_ifs
      · exact handleRecord_frame enableFlag drv a (reg.heap a)
      · exact hsame _
    · intro a ha
      dsimp only
      split_ifs with hmem
      · rcases ha with h | h
        · exact absurd hmem h
        · exact handleRecord_not_eligible enableFlag drv a _ h
      · rfl
  · intro MAX_NUM encoders heap
    have hrun : Fixed.RotaryEncoder_handle enableFlag drv MAX_NUM encoders heap = _ :=
      Fixed.arrayLoop_spec enableFlag drv (MAX_NUM % 256) heap encoders
    have hoff : ∀ (p a n : Nat), p ≤ a → a < p + n → ∃ i, i < n ∧ a = p + i := by
      intro p a n h1 h2
      exact ⟨a - p, by omega, by omega⟩
    rw [hrun]
    constructor
    · intro a
      dsimp only
      split_ifs
      · exact handleRecord_frame enableFlag drv a (heap a)
      · exact hsame _
    · intro a ha
      dsimp only
      split_ifs with hslot
      · rcases ha with h | h
        · obtain ⟨i, hi, hai⟩ := hoff encoders a (MAX_NUM % 256) hslot.1 hslot.2.1
          exact absurd hai (h i hi)
        · refine handleRecord_not_eligible enableFlag drv a _ (fun hen => h ⟨hslot.2.2, hen⟩)
      · rfl

/-- C19 at the two-record chain, and at a two-slot array at address 1 over
the same memory. -/
theorem handle_changes_only_index_and_direction_witness :
    (ChainFrom twoRegistry.heap twoRegistry.lastEncoder [1, 2] ∧
      ∃ reg' evs, Chain.RotaryEncoder_handle false (pinsDriver 1 0) 3 twoRegistry
          = .ok (reg', evs) ∧
        reg'.lastEncoder = twoRegistry.lastEncoder ∧
        (∀ a, SameButIndexAndDirection (twoRegistry.heap a) (reg'.heap a)) ∧
        (∀ a, (a ∉ [1, 2] ∨ ¬ Chain.Eligible false (twoRegistry.heap a)) →
          reg'.heap a = twoRegistry.heap a)) ∧
    ((∀ a, SameButIndexAndDirection (twoRegistry.heap a)
        ((Fixed.RotaryEncoder_handle false (pinsDriver 1 0) 2 1 twoRegistry.heap).1 a)) ∧
      (∀ a, ((∀ i, i < 2 % 256 → a ≠ 1 + i) ∨ ¬ Fixed.Eligible false (twoRegistry.heap a)) →
        (Fixed.RotaryEncoder_handle false (pinsDriver 1 0) 2 1 twoRegistry.heap).1 a
          = twoRegistry.heap a)) :=
  ⟨⟨by decide,
     (handle_changes_only_index_and_direction false (pinsDriver 1 0)).1 twoRegistry [1, 2] 3
       (by decide) (by decide)⟩,
   (handle_changes_only_index_and_direction false (pinsDriver 1 0)).2 2 1 twoRegistry.heap⟩
